import Mathlib

/-!
Verification development for the oxc lexer core, its `Atom` small-string
representation and the base54 mangler.

Shallow embedding conventions:
* We model the 64-bit platform (`usize` is 8 bytes), as fixed by the
  `const_assert!(USIZE_SIZE == 8 || USIZE_SIZE == 4)` in `oxc_atom/src/lib.rs`
  and the spec's "16 bytes on 64-bit".
* Machine bytes and words are `Nat` with explicit masking / `% 2^w` where the
  Rust code can wrap.
* Strings are modelled as lists of Unicode scalar values (`List Nat`, each
  satisfying `ValidCp`, the validity invariant of Rust `char`), and their
  UTF-8 byte encodings as `List Nat` with every element `< 256`.
* Raw pointers cannot be modelled directly; a pointer to string data is
  modelled by the pointed-to byte list itself, and `slice::from_raw_parts(ptr, n)`
  by taking the first `n` bytes of that list.
* Rust panics (`assert!`, `unreachable!`) are modelled by `Option`, `none`
  being the panic.
-/

/-! ## Constants from `crates/oxc_atom/src/lib.rs` (64-bit platform) -/

def USIZE_SIZE : Nat := 8

/-- `pub const MAX_LEN_INLINE: usize = size_of::<Atom>();` (= 16 on 64-bit). -/
def MAX_LEN_INLINE : Nat := 16

/-- `const FLAG_MASK: u8 = 0b11100000;` -/
def FLAG_MASK : Nat := 0b11100000

/-- `pub const MAX_LEN: usize = usize::MAX >> 3;` -/
def MAX_LEN : Nat := (2 ^ 64 - 1) >>> 3

/-- `pub(crate) const INLINE_FLAG: u8 = FLAG_MASK;` -/
def INLINE_FLAG : Nat := FLAG_MASK

/-- `const HEAP_FLAG: u8 = 0b11000000;` -/
def HEAP_FLAG : Nat := 0b11000000

/-- `pub(crate) const HEAP_FLAG_USIZE: usize = (HEAP_FLAG as usize) << ((USIZE_SIZE - 1) * 8);` -/
def HEAP_FLAG_USIZE : Nat := HEAP_FLAG <<< ((USIZE_SIZE - 1) * 8)

/-! ## Unicode scalar values and UTF-8 encoding

`ValidCp v` is the invariant of a Rust `char` (a Unicode scalar value), and
`utf8Encode` the standard UTF-8 encoding (`char::encode_utf8`).  They model
"valid UTF-8 string" inputs: byte strings of the form `encodeList cs` with
every element of `cs` a scalar value. -/

def ValidCp (v : Nat) : Prop := v < 0xD800 ∨ (0xDFFF < v ∧ v < 0x110000)

instance (v : Nat) : Decidable (ValidCp v) := by unfold ValidCp; infer_instance

/-- Standard UTF-8 encoding of one Unicode scalar value. -/
def utf8Encode (v : Nat) : List Nat :=
  if v < 0x80 then
    [v]
  else if v < 0x800 then
    [0xC0 ||| (v >>> 6), 0x80 ||| (v &&& 0x3F)]
  else if v < 0x10000 then
    [0xE0 ||| (v >>> 12), 0x80 ||| ((v >>> 6) &&& 0x3F), 0x80 ||| (v &&& 0x3F)]
  else
    [0xF0 ||| (v >>> 18), 0x80 ||| ((v >>> 12) &&& 0x3F),
     0x80 ||| ((v >>> 6) &&& 0x3F), 0x80 ||| (v &&& 0x3F)]

/-- UTF-8 byte encoding of a whole string (list of scalar values). -/
def encodeList : List Nat → List Nat
  | [] => []
  | c :: cs => utf8Encode c ++ encodeList cs

/-! ## `crates/oxc_atom/src/inline.rs` -/

/-- Model of `ptr::copy_nonoverlapping(src, dst, src.len())` into the start of
`dst`: the copied bytes followed by the untouched tail of `dst`. -/
def overwriteStart (dst src : List Nat) : List Nat :=
  src ++ dst.drop src.length

/-- `InlineBuffer::new(text)`: a 16-byte buffer, zero-filled, with
`len | INLINE_FLAG` written to the last byte and then the string bytes copied
over bytes `0..len` (overwriting the length byte when `len == 16`).
Safety invariant of the Rust code: `text.len() <= MAX_LEN_INLINE`. -/
def InlineBuffer.new (text : List Nat) : List Nat :=
  let buffer := List.replicate MAX_LEN_INLINE 0
  let buffer := buffer.set (MAX_LEN_INLINE - 1) (text.length ||| INLINE_FLAG)
  overwriteStart buffer text

/-- `InlineBuffer::new_const(text)`: same buffer layout as `InlineBuffer::new`,
built by the backwards `while` loop (`buffer[i - 1] = text[i - 1]`). -/
def InlineBuffer.newConstLoop (buffer text : List Nat) : Nat → List Nat
  | 0 => buffer
  | i + 1 => InlineBuffer.newConstLoop (buffer.set i (text.getD i 0)) text i

def InlineBuffer.new_const (text : List Nat) : Option (List Nat) :=
  if text.length ≤ MAX_LEN_INLINE then
    let buffer := List.replicate MAX_LEN_INLINE 0
    let buffer := buffer.set (MAX_LEN_INLINE - 1) (text.length ||| INLINE_FLAG)
    some (InlineBuffer.newConstLoop buffer text text.length)
  else
    none

/-! ## `crates/oxc_atom/src/heap.rs` -/

/-- `usize::to_le_bytes` on the 64-bit platform. -/
def usizeToLeBytes (x : Nat) : List Nat :=
  [x % 256, (x >>> 8) % 256, (x >>> 16) % 256, (x >>> 24) % 256,
   (x >>> 32) % 256, (x >>> 40) % 256, (x >>> 48) % 256, (x >>> 56) % 256]

/-- `usize::from_le_bytes` on the 64-bit platform. -/
def usizeFromLeBytes : List Nat → Nat
  | [] => 0
  | b :: rest => b + 256 * usizeFromLeBytes rest

/-- `HeapBuffer`: a pointer to string data plus the length stored as
little-endian bytes.  The pointer is modelled by the pointed-to bytes. -/
structure HeapBuffer where
  ptrStr : List Nat
  lenBytes : List Nat
deriving DecidableEq

/-- `HeapBuffer::new(text)`.  `assert!(text.len() <= MAX_LEN)` is the panic,
modelled as `none`.  The stored length word is `text.len() | HEAP_FLAG_USIZE`. -/
def HeapBuffer.new (text : List Nat) : Option HeapBuffer :=
  if text.length ≤ MAX_LEN then
    some { ptrStr := text, lenBytes := usizeToLeBytes (text.length ||| HEAP_FLAG_USIZE) }
  else
    none

/-! ## `crates/oxc_atom/src/lib.rs`: the `Atom` type and its operations

A Rust `Atom` is 16 bytes whose interpretation (inline vs heap) is decided by
the top 3 bits of the last byte; embedding the `transmute`s, we keep the two
buffer layouts as the two cases of a sum, with `Atom.last_byte` reading the
last of the 16 bytes in either layout. -/

inductive Atom where
  | inline (buf : List Nat)
  | heap (hb : HeapBuffer)
deriving DecidableEq

/-- The full 16-byte representation of the `Atom` (what `transmute`/`Clone`
copies, and what the `Option<Atom>` niche looks at). -/
def Atom.reprBytes : Atom → List Nat
  | .inline buf => buf
  | .heap hb => hb.ptrStr.length % 2 ^ 64 |> usizeToLeBytes |>.append hb.lenBytes

/-- `Atom::last_byte()`: the last of the 16 bytes.  For the heap layout this is
the last byte of the little-endian length word. -/
def Atom.last_byte : Atom → Nat
  | .inline buf => buf.getD (MAX_LEN_INLINE - 1) 0
  | .heap hb => hb.lenBytes.getD (USIZE_SIZE - 1) 0

/-- `Atom::is_heap()`: `last_byte & FLAG_MASK == HEAP_FLAG`. -/
def Atom.is_heap (a : Atom) : Bool := a.last_byte &&& FLAG_MASK == HEAP_FLAG

/-- `Atom::is_inline()`: `!is_heap()`. -/
def Atom.is_inline (a : Atom) : Bool := !a.is_heap

/-- `Atom::len_inline()`: `min(last_byte.wrapping_sub(INLINE_FLAG), MAX_LEN_INLINE)`
(`u8` wrapping subtraction). -/
def Atom.len_inline (a : Atom) : Nat :=
  min ((a.last_byte + 256 - INLINE_FLAG) % 256) MAX_LEN_INLINE

/-- `Atom::len_heap()`: read the last 8 bytes as a little-endian `usize` and
mask off the flag bits with `& MAX_LEN`. -/
def Atom.len_heap (a : Atom) : Nat :=
  match a with
  | .inline buf => usizeFromLeBytes (buf.drop USIZE_SIZE) &&& MAX_LEN
  | .heap hb => usizeFromLeBytes hb.lenBytes &&& MAX_LEN

/-- `Atom::len()`: starts from the inline length and conditionally becomes the
heap length (the branch the compiler turns into a conditional move). -/
def Atom.len (a : Atom) : Nat :=
  if a.is_heap then a.len_heap else a.len_inline

/-- `Atom::is_empty()`: `last_byte == INLINE_FLAG`. -/
def Atom.is_empty (a : Atom) : Bool := a.last_byte == INLINE_FLAG

/-- `Atom::as_slice()`: reads `len` bytes from the selected pointer - the
inline buffer itself, or the heap pointer (modelled by the pointed-to bytes). -/
def Atom.as_slice (a : Atom) : List Nat :=
  match a with
  | .inline buf => buf.take a.len_inline
  | .heap hb => if a.is_heap then hb.ptrStr.take a.len_heap else hb.ptrStr.take a.len_inline

/-- `Atom::new(text)`: inline if `len <= MAX_LEN_INLINE`, heap otherwise
(which panics, i.e. `none`, if `len > MAX_LEN`). -/
def Atom.new (text : List Nat) : Option Atom :=
  if text.length ≤ MAX_LEN_INLINE then
    some (.inline (InlineBuffer.new text))
  else
    (HeapBuffer.new text).map .heap

/-- `Atom::new_in(text, allocator)`: same layout decision as `Atom::new`; the
long case first copies `text` into the arena (`allocator.alloc_str(text)`),
which yields the same bytes, so the stored buffer is identical. -/
def Atom.new_in (text : List Nat) : Option Atom :=
  if text.length ≤ MAX_LEN_INLINE then
    some (.inline (InlineBuffer.new text))
  else
    (HeapBuffer.new text).map .heap

/-- `Atom::new_const(text)`: compile-time variant via `InlineBuffer::new_const`. -/
def Atom.new_const (text : List Nat) : Option Atom :=
  if text.length ≤ MAX_LEN_INLINE then
    (InlineBuffer.new_const text).map .inline
  else
    (HeapBuffer.new text).map .heap

/-- `Atom::default()`: `Atom::new_const("")`. -/
def Atom.default : Option Atom := Atom.new_const []

/-! ## `crates/oxc_atom/src/base54.rs` -/

/-- `BASE54_CHARS`: the 64 usable identifier characters; the first 54 are the
legal identifier-start characters. -/
def BASE54_CHARS : List Nat :=
  ("abcdefghijklmnopqrstuvwxyzABCDEFGHIJKLMNOPQRSTUVWXYZ$_0123456789").data.map Char.toNat

/-- `const MAX_MANGLED_LEN: usize = 11` on 64-bit. -/
def MAX_MANGLED_LEN : Nat := 11

/-- The `while num > 0 { num -= 1; ret[len] = BASE54_CHARS[num % base]; num /= base; len += 1 }`
loop of `Atom::base54`, returning the bytes it writes (`ret[1..len]`).
The loop variable strictly decreases, so `fuel` (consumed once per turn,
always at least the loop variable) makes the recursion structural without
changing the value computed; see `base54Loop_succ`. -/
def base54LoopGo : Nat → Nat → List Nat
  | _, 0 => []
  | 0, _ + 1 => []
  | fuel + 1, num + 1 => BASE54_CHARS.getD (num % 64) 0 :: base54LoopGo fuel (num / 64)

def base54Loop (num : Nat) : List Nat := base54LoopGo num num

theorem base54LoopGo_fuel (fuel : Nat) :
    ∀ fuel' num, num ≤ fuel → num ≤ fuel' → base54LoopGo fuel num = base54LoopGo fuel' num := by
  induction fuel with
  | zero =>
    intro fuel' num h _
    interval_cases num
    cases fuel' <;> rfl
  | succ fuel ih =>
    intro fuel' num h h'
    match num, fuel' with
    | 0, fuel' => cases fuel' <;> rfl
    | num + 1, fuel' + 1 =>
      show _ :: base54LoopGo fuel (num / 64) = _ :: base54LoopGo fuel' (num / 64)
      rw [ih fuel' (num / 64) (by omega) (by omega)]

theorem base54Loop_zero : base54Loop 0 = [] := rfl

theorem base54Loop_succ (num : Nat) :
    base54Loop (num + 1) = BASE54_CHARS.getD (num % 64) 0 :: base54Loop (num / 64) := by
  show _ :: base54LoopGo num (num / 64) = _ :: base54LoopGo (num / 64) (num / 64)
  rw [base54LoopGo_fuel num (num / 64) (num / 64) (by omega) (by omega)]

/-- The string built by `Atom::base54(n)`: first digit base 54, remaining
digits by the base-64 loop on `n / 54`. -/
def base54Str (n : Nat) : List Nat :=
  BASE54_CHARS.getD (n % 54) 0 :: base54Loop (n / 54)

/-- `Atom::base54(n)`: `Atom::new_inline` of the built string, i.e. an inline
buffer (safety invariant: the string is at most `MAX_MANGLED_LEN` bytes). -/
def Atom.base54 (n : Nat) : Atom :=
  .inline (InlineBuffer.new (base54Str n))

/-- `BASE64_CHARS_AND_NULL`: the 64 characters plus a trailing `\0`. -/
def BASE64_CHARS_AND_NULL : List Nat := BASE54_CHARS ++ [0]

/-- `const NULL_INDEX: u8 = BASE64_CHARS_AND_NULL.len() as u8 - 1;` (= 64). -/
def NULL_INDEX : Nat := 64

/-- The digit loop of `Atom::base54_faster` (entered with `num = n / 54 - 1`):
emits `num` itself if `num < 64`, otherwise `num % 64` and continues with
`num / 64 - 1`.  Same structural-fuel device as `base54LoopGo`; the fallback
value at fuel 0 agrees with the loop because `num ≤ fuel` implies `num = 0`
there; see `base54FasterLoop_lt` / `base54FasterLoop_ge`. -/
def base54FasterLoopGo : Nat → Nat → List Nat
  | 0, num => [num]
  | fuel + 1, num => if num < 64 then [num] else num % 64 :: base54FasterLoopGo fuel (num / 64 - 1)

def base54FasterLoop (num : Nat) : List Nat := base54FasterLoopGo num num

theorem base54FasterLoopGo_fuel (fuel : Nat) :
    ∀ fuel' num, num ≤ fuel → num ≤ fuel' →
      base54FasterLoopGo fuel num = base54FasterLoopGo fuel' num := by
  induction fuel with
  | zero =>
    intro fuel' num h _
    interval_cases num
    cases fuel' with
    | zero => rfl
    | succ fuel' => show [0] = if (0:Nat) < 64 then [0] else _; rw [if_pos (by omega)]
  | succ fuel ih =>
    intro fuel' num h h'
    by_cases h64 : num < 64
    · cases fuel' with
      | zero =>
        have : num = 0 := by omega
        subst this
        show (if (0:Nat) < 64 then [0] else _) = [0]
        rw [if_pos (by omega)]
      | succ fuel' =>
        show (if num < 64 then [num] else _) = (if num < 64 then [num] else _)
        rw [if_pos h64, if_pos h64]
    · cases fuel' with
      | zero => omega
      | succ fuel' =>
        show (if num < 64 then [num] else _ :: base54FasterLoopGo fuel (num / 64 - 1)) =
          (if num < 64 then [num] else _ :: base54FasterLoopGo fuel' (num / 64 - 1))
        rw [if_neg h64, if_neg h64, ih fuel' (num / 64 - 1) (by omega) (by omega)]

theorem base54FasterLoop_lt (num : Nat) (h : num < 64) : base54FasterLoop num = [num] := by
  cases num with
  | zero => rfl
  | succ num => show (if _ then _ else _) = _; rw [if_pos h]

theorem base54FasterLoop_ge (num : Nat) (h : 64 ≤ num) :
    base54FasterLoop num = num % 64 :: base54FasterLoop (num / 64 - 1) := by
  match num, h with
  | num + 1, h =>
    show (if _ then _ else _) = _
    rw [if_neg (by omega)]
    show _ :: base54FasterLoopGo num ((num + 1) / 64 - 1) = _
    rw [base54FasterLoopGo_fuel num ((num + 1) / 64 - 1) ((num + 1) / 64 - 1) (by omega) (by omega)]
    rfl

/-- `Atom::base54_faster(n)`: the resulting 16 bytes, which are transmuted to
an (inline) `Atom`.  The fast path handles `n < 54`; otherwise the digit
indexes are written over an array initialised to `NULL_INDEX`, all 16 slots
are mapped through `BASE64_CHARS_AND_NULL` (so untouched slots become 0), and
the last byte is overwritten with `len | INLINE_FLAG`. -/
def base54FasterBytes (n : Nat) : List Nat :=
  if n < 54 then
    ((List.replicate MAX_LEN_INLINE 0).set 0 (BASE64_CHARS_AND_NULL.getD n 0)).set
      (MAX_LEN_INLINE - 1) (1 ||| INLINE_FLAG)
  else
    let idxList := n % 54 :: base54FasterLoop (n / 54 - 1)
    let indexes := idxList ++ List.replicate (MAX_LEN_INLINE - idxList.length) NULL_INDEX
    let bytes := indexes.map (fun i => BASE64_CHARS_AND_NULL.getD i 0)
    bytes.set (MAX_LEN_INLINE - 1) (idxList.length ||| INLINE_FLAG)

def Atom.base54_faster (n : Nat) : Atom :=
  .inline (base54FasterBytes n)

/-! ## List auxiliary lemmas -/

theorem setReplicateLast (k : Nat) (v : Nat) :
    (List.replicate (k + 1) (0 : Nat)).set k v = List.replicate k 0 ++ [v] := by
  induction k with
  | zero => rfl
  | succ k ih =>
    rw [List.replicate_succ, List.set_cons_succ, ih, List.replicate_succ]
    rfl

theorem setAppendRight (l1 l2 : List Nat) (n v : Nat) (h : l1.length ≤ n) :
    (l1 ++ l2).set n v = l1 ++ l2.set (n - l1.length) v := by
  induction l1 generalizing n with
  | nil => simp
  | cons a l1 ih =>
    cases n with
    | zero => simp at h
    | succ n => simp only [List.cons_append, List.set_cons_succ, List.length_cons]
                rw [ih n (by simpa using h)]
                simp [Nat.succ_sub_succ]

theorem dropReplicate (m n : Nat) :
    (List.replicate m (0 : Nat)).drop n = List.replicate (m - n) 0 := by
  induction m generalizing n with
  | zero => simp
  | succ m ih =>
    cases n with
    | zero => rfl
    | succ n => simp [List.replicate_succ, ih, Nat.succ_sub_succ]

theorem dropAppendLeft (l1 l2 : List Nat) (n : Nat) (h : n ≤ l1.length) :
    (l1 ++ l2).drop n = l1.drop n ++ l2 := by
  induction l1 generalizing n with
  | nil => simp_all
  | cons a l1 ih =>
    cases n with
    | zero => rfl
    | succ n => simpa using ih n (by simpa using h)

/-! ## C3 / C9: base54 facts -/

/-- ASCII byte string of a Lean string literal, for stating results. -/
def asciiBytes (s : String) : List Nat := s.data.map Char.toNat

theorem charsAgree : ∀ d, d < 64 → BASE64_CHARS_AND_NULL.getD d 0 = BASE54_CHARS.getD d 0 := by
  decide

theorem base54FasterLoop_eq (m : Nat) :
    (base54FasterLoop m).map (fun i => BASE64_CHARS_AND_NULL.getD i 0) =
      base54Loop (m + 1) := by
  induction m using Nat.strong_induction_on with
  | _ m ih =>
    by_cases h : m < 64
    · rw [base54FasterLoop_lt m h, base54Loop_succ]
      have h1 : m % 64 = m := Nat.mod_eq_of_lt h
      have h2 : m / 64 = 0 := Nat.div_eq_of_lt h
      rw [h1, h2, base54Loop_zero]
      simp only [List.map_cons, List.map_nil]
      rw [charsAgree m h]
    · have hge : 64 ≤ m := Nat.le_of_not_lt h
      rw [base54FasterLoop_ge m hge, base54Loop_succ]
      simp only [List.map_cons]
      have hlt : m / 64 - 1 < m := by omega
      rw [ih _ hlt]
      have hdiv : 1 ≤ m / 64 := (Nat.le_div_iff_mul_le (by omega)).2 (by omega)
      have : m / 64 - 1 + 1 = m / 64 := by omega
      rw [this]
      rw [charsAgree (m % 64) (Nat.mod_lt _ (by omega))]

theorem base54Loop_length (k : Nat) : ∀ m, m < 64 ^ k → (base54Loop m).length ≤ k := by
  induction k with
  | zero => intro m hm; interval_cases m; simp [base54Loop_zero]
  | succ k ih =>
    intro m hm
    match m with
    | 0 => simp [base54Loop_zero]
    | num + 1 =>
      rw [base54Loop_succ]
      simp only [List.length_cons]
      have : num / 64 < 64 ^ k := by
        rw [Nat.div_lt_iff_lt_mul (by omega)]
        calc num < 64 ^ (k + 1) := by omega
        _ = 64 ^ k * 64 := by rw [Nat.pow_succ]
      exact Nat.succ_le_succ (ih _ this)

/-- Normal form of `InlineBuffer::new` for a short string: the string bytes,
zero padding, and the length byte written over the last position. -/
theorem inlineBufferEq (text : List Nat) (h : text.length ≤ 15) :
    InlineBuffer.new text =
      (text ++ List.replicate (16 - text.length) 0).set 15 (text.length ||| INLINE_FLAG) := by
  rw [setAppendRight _ _ _ _ (by omega)]
  have h16 : 16 - text.length = (15 - text.length) + 1 := by omega
  rw [h16, setReplicateLast]
  show text ++ ((List.replicate 16 (0:Nat)).set 15 (text.length ||| INLINE_FLAG)).drop text.length = _
  rw [setReplicateLast 15, dropAppendLeft _ _ _ (by simp only [List.length_replicate]; omega),
    dropReplicate]

theorem base54_buffers_eq (n : Nat) (hn : n < 2 ^ 64) :
    InlineBuffer.new (base54Str n) = base54FasterBytes n := by
  by_cases h54 : n < 54
  · have hs : base54Str n = [BASE54_CHARS.getD n 0] := by
      unfold base54Str
      rw [Nat.mod_eq_of_lt h54, Nat.div_eq_of_lt h54, base54Loop_zero]
    rw [hs]
    unfold base54FasterBytes
    rw [if_pos h54, charsAgree n (by omega)]
    rfl
  · have h1 : 1 ≤ n / 54 := (Nat.le_div_iff_mul_le (by omega)).2 (by omega)
    have hm : n / 54 = (n / 54 - 1) + 1 := by omega
    have hstr : base54Str n =
        (n % 54 :: base54FasterLoop (n / 54 - 1)).map
          (fun i => BASE64_CHARS_AND_NULL.getD i 0) := by
      unfold base54Str
      rw [List.map_cons, base54FasterLoop_eq, ← hm,
        charsAgree (n % 54) (Nat.lt_trans (Nat.mod_lt _ (by omega)) (by omega))]
    have hlenLoop : (base54FasterLoop (n / 54 - 1)).length ≤ 10 := by
      have hlt : n / 54 - 1 + 1 < 64 ^ 10 := by
        have : (64 : Nat) ^ 10 = 2 ^ 60 := by norm_num
        rw [this]
        omega
      calc (base54FasterLoop (n / 54 - 1)).length
          = ((base54FasterLoop (n / 54 - 1)).map
              (fun i => BASE64_CHARS_AND_NULL.getD i 0)).length := by
            rw [List.length_map]
        _ = (base54Loop (n / 54 - 1 + 1)).length := by rw [base54FasterLoop_eq]
        _ ≤ 10 := base54Loop_length 10 _ hlt
    set idxList := n % 54 :: base54FasterLoop (n / 54 - 1) with hidx
    have hslen : (base54Str n).length = idxList.length := by
      rw [hstr, List.length_map]
    have hL : (base54Str n).length ≤ 11 := by
      rw [hslen, hidx]
      simp only [List.length_cons]
      omega
    unfold base54FasterBytes
    rw [if_neg h54]
    simp only [← hidx, List.map_append, List.map_replicate]
    have hnull : BASE64_CHARS_AND_NULL.getD NULL_INDEX 0 = 0 := by decide
    rw [hnull, ← hstr, ← hslen]
    exact inlineBufferEq (base54Str n) (by omega)

set_option maxRecDepth 4000 in
/-- C3 counterexample: `base54(53)` is `"_"`, not `"$"` as the claim states.
In `BASE54_CHARS` the character `'$'` is at index 52 and `'_'` at index 53. -/
theorem claim_C3_counterexample :
    ¬ (Atom.base54 53).as_slice = asciiBytes ("$") := by decide

set_option maxRecDepth 8000 in
/-- C3 (amended): the Base54 mangler returns `"a"` for 0, `"$"` for 52,
`"_"` for 53 (the 54th identifier-start character is `'_'`), and `"aa"` for 54;
after the last one-character name (`base54(53) = "_"`) the names continue with
`"aa"` without skipping. -/
theorem claim_C3 :
    (Atom.base54 0).as_slice = asciiBytes ("a") ∧
    (Atom.base54 52).as_slice = asciiBytes ("$") ∧
    (Atom.base54 53).as_slice = asciiBytes ("_") ∧
    (Atom.base54 (53 + 1)).as_slice = asciiBytes ("aa") := by decide

/-- C9: for every `n : usize`, `Atom::base54(n)` and `Atom::base54_faster(n)`
return Atoms with identical 16-byte representations, and hence equal strings. -/
theorem claim_C9 (n : Nat) (hn : n < 2 ^ 64) :
    (Atom.base54 n).reprBytes = (Atom.base54_faster n).reprBytes ∧
    (Atom.base54 n).as_slice = (Atom.base54_faster n).as_slice := by
  have h := base54_buffers_eq n hn
  unfold Atom.base54 Atom.base54_faster
  rw [h]
  exact ⟨rfl, rfl⟩

theorem claim_C9_witness :
    2024 < 2 ^ 64 ∧
    ((Atom.base54 2024).reprBytes = (Atom.base54_faster 2024).reprBytes ∧
     (Atom.base54 2024).as_slice = (Atom.base54_faster 2024).as_slice) :=
  ⟨by norm_num, claim_C9 2024 (by norm_num)⟩

/-! ## Bit and list helpers for the Atom representation proofs -/

theorem orDisjoint (k a m : Nat) (h : m < 2 ^ k) : (2 ^ k * a) ||| m = 2 ^ k * a + m :=
  (Nat.mul_add_lt_is_or h a).symm

theorem orDisjoint' (k a m : Nat) (h : m < 2 ^ k) : m ||| (2 ^ k * a) = 2 ^ k * a + m := by
  rw [Nat.lor_comm]
  exact orDisjoint k a m h

theorem getDAppendRight (l1 l2 : List Nat) (j : Nat) :
    (l1 ++ l2).getD (l1.length + j) 0 = l2.getD j 0 := by
  induction l1 with
  | nil => simp
  | cons a l1 ih =>
    have h1 : l1.length + 1 + j = (l1.length + j) + 1 := by omega
    simp only [List.cons_append, List.length_cons, h1, List.getD_cons_succ]
    exact ih

theorem getDSetEq (l : List Nat) (i v : Nat) (h : i < l.length) :
    (l.set i v).getD i 0 = v := by
  induction l generalizing i with
  | nil => simp at h
  | cons a l ih =>
    cases i with
    | zero => rfl
    | succ i => simpa using ih i (by simpa using h)

theorem takeSetOfLe (l : List Nat) (n i v : Nat) (h : n ≤ i) :
    (l.set i v).take n = l.take n := by
  induction l generalizing n i with
  | nil => simp
  | cons a l ih =>
    cases i with
    | zero => cases n with
      | zero => rfl
      | succ n => omega
    | succ i =>
      cases n with
      | zero => rfl
      | succ n => simpa using ih n i (by omega)

theorem dropSet (l : List Nat) (k v : Nat) (h : k < l.length) :
    (l.set k v).drop k = v :: l.drop (k + 1) := by
  induction l generalizing k with
  | nil => simp at h
  | cons a l ih =>
    cases k with
    | zero => rfl
    | succ k => simpa using ih k (by simpa using h)

theorem takeSuccGetD (l : List Nat) (k : Nat) (h : k < l.length) :
    l.take (k + 1) = l.take k ++ [l.getD k 0] := by
  induction l generalizing k with
  | nil => simp at h
  | cons a l ih =>
    cases k with
    | zero => rfl
    | succ k => simpa using ih k (by simpa using h)

/-! ## UTF-8 byte facts -/

theorem utf8Encode_ne_nil (v : Nat) : utf8Encode v ≠ [] := by
  unfold utf8Encode
  split <;> try simp
  split <;> try simp
  split <;> simp

/-- The final byte of the UTF-8 encoding of one scalar value is `< 0xC0`
(ASCII, or a continuation byte). -/
theorem utf8Encode_last_lt (v : Nat) :
    ∀ b, (utf8Encode v).getLast? = some b → b < 192 := by
  intro b hb
  unfold utf8Encode at hb
  have h63 : (0x3F : Nat) = 2 ^ 6 - 1 := by norm_num
  split at hb
  · simp only [List.getLast?_singleton, Option.some_inj] at hb
    omega
  all_goals
    split at hb <;>
    [skip; split at hb] <;>
    simp only [List.getLast?_cons_cons, List.getLast?_singleton, Option.some_inj] at hb <;>
    · subst hb
      rw [h63, Nat.and_pow_two_sub_one_eq_mod,
        show (0x80 : Nat) = 2 ^ 6 * 2 from by norm_num,
        orDisjoint 6 2 _ (Nat.mod_lt _ (by omega))]
      omega

theorem getDLastBridge (l : List Nat) (b : Nat) (h : l.getLast? = some b) :
    l.getD (l.length - 1) 0 = b := by
  induction l with
  | nil => simp at h
  | cons a l ih =>
    cases l with
    | nil => simp at h ⊢; omega
    | cons x xs =>
      rw [List.getLast?_cons_cons] at h
      have := ih h
      simpa using this

/-- The final byte of the UTF-8 encoding of a whole string is `< 0xC0`. -/
theorem encodeList_last_lt (cs : List Nat) :
    ∀ b, (encodeList cs).getLast? = some b → b < 192 := by
  induction cs with
  | nil => intro b hb; simp [encodeList] at hb
  | cons c cs ih =>
    intro b hb
    simp only [encodeList, List.getLast?_append] at hb
    cases htail : (encodeList cs).getLast? with
    | some x =>
      rw [htail, Option.or_some] at hb
      have hx : x = b := by simpa using hb
      subst hx
      exact ih x htail
    | none =>
      rw [htail, Option.none_or] at hb
      exact utf8Encode_last_lt c b hb

/-! ## Heap representation facts -/

theorem fromToLe (x : Nat) : usizeFromLeBytes (usizeToLeBytes x) = x % 2 ^ 64 := by
  simp only [usizeToLeBytes, usizeFromLeBytes, Nat.shiftRight_eq_div_pow]
  omega

theorem maxLenEq : MAX_LEN = 2 ^ 61 - 1 := by
  unfold MAX_LEN
  rw [Nat.shiftRight_eq_div_pow]
  norm_num

theorem heapFlagUsizeEq : HEAP_FLAG_USIZE = 2 ^ 62 * 3 := by
  unfold HEAP_FLAG_USIZE HEAP_FLAG USIZE_SIZE
  rw [Nat.shiftLeft_eq]
  norm_num

/-- The length word stored by `HeapBuffer::new`: its top byte is
`0xC0 | (len >> 56)`, and reading it back and masking with `MAX_LEN` recovers
the length. -/
theorem heapLenBytesSpec (len : Nat) (h : len ≤ MAX_LEN) :
    (usizeToLeBytes (len ||| HEAP_FLAG_USIZE)).getD 7 0 = 192 + (len >>> 56) ∧
    (usizeFromLeBytes (usizeToLeBytes (len ||| HEAP_FLAG_USIZE)) &&& MAX_LEN) = len := by
  rw [maxLenEq] at h
  have hx : len ||| HEAP_FLAG_USIZE = 2 ^ 62 * 3 + len := by
    rw [heapFlagUsizeEq]
    exact orDisjoint' 62 3 len (by omega)
  constructor
  · show ((len ||| HEAP_FLAG_USIZE) >>> 56) % 256 = 192 + (len >>> 56)
    rw [hx, Nat.shiftRight_eq_div_pow, Nat.shiftRight_eq_div_pow]
    omega
  · rw [fromToLe, hx, maxLenEq, Nat.and_pow_two_sub_one_eq_mod]
    omega

/-! ## Inline representation facts -/

theorem inlineNewLastByteSmall (text : List Nat) (h : text.length < 16) :
    (Atom.inline (InlineBuffer.new text)).last_byte = 224 + text.length := by
  show (InlineBuffer.new text).getD 15 0 = 224 + text.length
  rw [inlineBufferEq text (by omega)]
  rw [getDSetEq _ 15 _ (by
    simp only [List.length_append, List.length_replicate]
    omega)]
  have h224 : (224 : Nat) = 2 ^ 5 * 7 := by norm_num
  rw [h224]
  exact orDisjoint' 5 7 _ (by omega)

theorem inlineFullEqText (text : List Nat) (h : text.length = 16) :
    InlineBuffer.new text = text := by
  unfold InlineBuffer.new overwriteStart
  simp only []
  rw [List.drop_of_length_le (by
    simp only [List.length_set, List.length_replicate]
    rw [h]
    show (16:Nat) ≤ 16
    omega), List.append_nil]

theorem inlineNewFactsSmall (text : List Nat) (h : text.length < 16) :
    (Atom.inline (InlineBuffer.new text)).is_heap = false ∧
    (Atom.inline (InlineBuffer.new text)).len_inline = text.length ∧
    (Atom.inline (InlineBuffer.new text)).as_slice = text := by
  have hlb := inlineNewLastByteSmall text h
  refine ⟨?_, ?_, ?_⟩
  · show ((Atom.inline (InlineBuffer.new text)).last_byte &&& FLAG_MASK == HEAP_FLAG) = false
    rw [hlb]
    have : ∀ L, L < 16 → (((224 + L) &&& FLAG_MASK == HEAP_FLAG) = false) := by decide
    exact this _ h
  · show min (((Atom.inline (InlineBuffer.new text)).last_byte + 256 - INLINE_FLAG) % 256)
      MAX_LEN_INLINE = text.length
    rw [hlb]
    have h1 : (224 + text.length + 256 - INLINE_FLAG) % 256 = text.length := by
      show (224 + text.length + 256 - 224) % 256 = text.length
      omega
    rw [h1]
    exact Nat.min_eq_left (by show text.length ≤ 16; omega)
  · show (InlineBuffer.new text).take (Atom.inline (InlineBuffer.new text)).len_inline = text
    have hli : (Atom.inline (InlineBuffer.new text)).len_inline = text.length := by
      show min (((Atom.inline (InlineBuffer.new text)).last_byte + 256 - INLINE_FLAG) % 256)
        MAX_LEN_INLINE = text.length
      rw [hlb]
      have h1 : (224 + text.length + 256 - INLINE_FLAG) % 256 = text.length := by
        show (224 + text.length + 256 - 224) % 256 = text.length
        omega
      rw [h1]
      exact Nat.min_eq_left (by show text.length ≤ 16; omega)
    rw [hli, inlineBufferEq text (by omega), takeSetOfLe _ _ _ _ (by omega)]
    exact List.take_left' rfl

set_option maxRecDepth 2000 in
theorem byteNotHeapFlag : ∀ b, b < 192 → ((b &&& FLAG_MASK == HEAP_FLAG) = false) := by decide

theorem inlineNewFactsFull (text : List Nat) (h : text.length = 16)
    (hlast : ∀ b, text.getLast? = some b → b < 192) :
    (Atom.inline (InlineBuffer.new text)).is_heap = false ∧
    (Atom.inline (InlineBuffer.new text)).len_inline = text.length ∧
    (Atom.inline (InlineBuffer.new text)).as_slice = text := by
  have hne : text ≠ [] := by intro hnil; rw [hnil] at h; simp at h
  obtain ⟨b, hb⟩ : ∃ b, text.getLast? = some b := by
    cases htl : text.getLast? with
    | none => exact absurd (List.getLast?_eq_none_iff.1 htl) hne
    | some b => exact ⟨b, rfl⟩
  have hblt : b < 192 := hlast b hb
  have hlb : (Atom.inline (InlineBuffer.new text)).last_byte = b := by
    show (InlineBuffer.new text).getD 15 0 = b
    rw [inlineFullEqText text h]
    have := getDLastBridge text b hb
    rw [h] at this
    exact this
  refine ⟨?_, ?_, ?_⟩
  · show ((Atom.inline (InlineBuffer.new text)).last_byte &&& FLAG_MASK == HEAP_FLAG) = false
    rw [hlb]
    exact byteNotHeapFlag b hblt
  · show min (((Atom.inline (InlineBuffer.new text)).last_byte + 256 - INLINE_FLAG) % 256)
      MAX_LEN_INLINE = text.length
    rw [hlb, h]
    show min ((b + 256 - 224) % 256) 16 = 16
    have h1 : (b + 256 - 224) % 256 = b + 32 := by omega
    rw [h1]
    exact Nat.min_eq_right (by omega)
  · show (InlineBuffer.new text).take (Atom.inline (InlineBuffer.new text)).len_inline = text
    have hli : (Atom.inline (InlineBuffer.new text)).len_inline = 16 := by
      show min (((Atom.inline (InlineBuffer.new text)).last_byte + 256 - INLINE_FLAG) % 256)
        MAX_LEN_INLINE = 16
      rw [hlb]
      show min ((b + 256 - 224) % 256) 16 = 16
      have h1 : (b + 256 - 224) % 256 = b + 32 := by omega
      rw [h1]
      exact Nat.min_eq_right (by omega)
    rw [hli, inlineFullEqText text h, ← h, List.take_length]

/-! ## C2: `Atom::new` stores short strings inline and long strings out of line -/

set_option maxRecDepth 2000 in
theorem byteHeapFlagIsHeap : ∀ t, t < 32 → (((192 + t) &&& FLAG_MASK == HEAP_FLAG) = true) := by
  decide

/-- The heap `Atom` that `Atom::new` builds for a long string (the value
`HeapBuffer::new` returns, wrapped). -/
def heapAtomOf (text : List Nat) : Atom :=
  .heap { ptrStr := text, lenBytes := usizeToLeBytes (text.length ||| HEAP_FLAG_USIZE) }

theorem heapNewFacts (text : List Nat) (h : text.length ≤ MAX_LEN) :
    (heapAtomOf text).is_heap = true ∧ (heapAtomOf text).as_slice = text := by
  obtain ⟨h7, hlen⟩ := heapLenBytesSpec text.length h
  have hlb : (heapAtomOf text).last_byte = 192 + (text.length >>> 56) := by
    show (usizeToLeBytes (text.length ||| HEAP_FLAG_USIZE)).getD 7 0 = _
    exact h7
  have hsh : text.length >>> 56 < 32 := by
    rw [maxLenEq] at h
    rw [Nat.shiftRight_eq_div_pow]
    omega
  have hih : (heapAtomOf text).is_heap = true := by
    show ((heapAtomOf text).last_byte &&& FLAG_MASK == HEAP_FLAG) = true
    rw [hlb]
    exact byteHeapFlagIsHeap _ hsh
  refine ⟨hih, ?_⟩
  show (if (heapAtomOf text).is_heap then
      text.take ((heapAtomOf text).len_heap) else _) = text
  rw [hih]
  show text.take (usizeFromLeBytes (usizeToLeBytes (text.length ||| HEAP_FLAG_USIZE)) &&& MAX_LEN)
    = text
  rw [hlen, List.take_length]

/-- C2: for every valid UTF-8 string `s`: if `|s| ≤ MAX_LEN_INLINE` then
`Atom::new(s)` is stored inline (`is_inline()`) with `as_str() == s`; if
`MAX_LEN_INLINE < |s| ≤ MAX_LEN` then it is stored out of line (`is_heap()`)
with `as_str() == s`. -/
theorem claim_C2 (cs : List Nat) (hv : ∀ v ∈ cs, ValidCp v) :
    ((encodeList cs).length ≤ MAX_LEN_INLINE →
      ∃ a, Atom.new (encodeList cs) = some a ∧ a.is_inline = true ∧
        a.as_slice = encodeList cs) ∧
    (MAX_LEN_INLINE < (encodeList cs).length → (encodeList cs).length ≤ MAX_LEN →
      ∃ a, Atom.new (encodeList cs) = some a ∧ a.is_heap = true ∧
        a.as_slice = encodeList cs) := by
  constructor
  · intro h16
    refine ⟨.inline (InlineBuffer.new (encodeList cs)), ?_, ?_, ?_⟩
    · unfold Atom.new
      rw [if_pos h16]
    · show (!(Atom.inline (InlineBuffer.new (encodeList cs))).is_heap) = true
      rcases Nat.lt_or_ge (encodeList cs).length 16 with hlt | hge
      · rw [(inlineNewFactsSmall _ hlt).1]
        rfl
      · have he : (encodeList cs).length = 16 := by
          have h' : MAX_LEN_INLINE = 16 := rfl
          omega
        rw [(inlineNewFactsFull _ he (encodeList_last_lt cs)).1]
        rfl
    · rcases Nat.lt_or_ge (encodeList cs).length 16 with hlt | hge
      · exact (inlineNewFactsSmall _ hlt).2.2
      · have he : (encodeList cs).length = 16 := by
          have h' : MAX_LEN_INLINE = 16 := rfl
          omega
        exact (inlineNewFactsFull _ he (encodeList_last_lt cs)).2.2
  · intro hgt hle
    refine ⟨heapAtomOf (encodeList cs), ?_, (heapNewFacts _ hle).1, (heapNewFacts _ hle).2⟩
    unfold Atom.new
    rw [if_neg (by omega)]
    unfold HeapBuffer.new
    rw [if_pos hle]
    rfl

theorem claim_C2_witness :
    (∃ a, Atom.new (encodeList [104, 105]) = some a ∧ a.is_inline = true ∧
      a.as_slice = encodeList [104, 105]) ∧
    (∃ a, Atom.new (encodeList (List.replicate 17 97)) = some a ∧ a.is_heap = true ∧
      a.as_slice = encodeList (List.replicate 17 97)) :=
  ⟨(claim_C2 [104, 105] (by decide)).1 (by decide),
   (claim_C2 (List.replicate 17 97) (by decide)).2 (by decide) (by decide)⟩

/-! ## C6: the niche invariant - no valid Atom has 0xFF in its last byte -/

/-- The niche property for the result of a fallible constructor: whenever an
`Atom` is actually produced, its last byte is not `0xFF`. -/
def lastByteOk : Option Atom → Prop
  | none => True
  | some a => a.last_byte ≠ 0xFF

theorem newConstLoopEq (k : Nat) : ∀ buffer text : List Nat, k ≤ text.length →
    k ≤ buffer.length →
    InlineBuffer.newConstLoop buffer text k = text.take k ++ buffer.drop k := by
  induction k with
  | zero => intro buffer text _ _; simp [InlineBuffer.newConstLoop]
  | succ k ih =>
    intro buffer text ht hb
    show InlineBuffer.newConstLoop (buffer.set k (text.getD k 0)) text k = _
    rw [ih (buffer.set k (text.getD k 0)) text (by omega)
      (by simp only [List.length_set]; omega)]
    rw [dropSet buffer k _ (by omega), takeSuccGetD text k (by omega)]
    simp

/-- `InlineBuffer::new_const` builds exactly the buffer `InlineBuffer::new`
builds (for strings within the inline capacity). -/
theorem newConstEqNew (text : List Nat) (h : text.length ≤ MAX_LEN_INLINE) :
    InlineBuffer.new_const text = some (InlineBuffer.new text) := by
  unfold InlineBuffer.new_const
  rw [if_pos h]
  unfold InlineBuffer.new overwriteStart
  simp only [Option.some_inj]
  rw [newConstLoopEq text.length _ text (by omega)
    (by simp only [List.length_set, List.length_replicate]
        have h16 : MAX_LEN_INLINE = 16 := rfl
        omega)]
  rw [List.take_length]

/-- `Atom::new_const` agrees with `Atom::new` on every input. -/
theorem newConstEqNewAtom (text : List Nat) :
    Atom.new_const text = Atom.new text := by
  unfold Atom.new_const Atom.new
  by_cases h : text.length ≤ MAX_LEN_INLINE
  · rw [if_pos h, if_pos h, newConstEqNew text h]
    rfl
  · rw [if_neg h, if_neg h]

theorem base54Str_length (n : Nat) (hn : n < 2 ^ 64) : (base54Str n).length ≤ 11 := by
  unfold base54Str
  simp only [List.length_cons]
  have h10 : (base54Loop (n / 54)).length ≤ 10 := by
    apply base54Loop_length 10
    have : (64 : Nat) ^ 10 = 2 ^ 60 := by norm_num
    rw [this]
    omega
  omega

/-- C6: every Atom produced by any constructor (`Atom::new`, `Atom::new_in`,
`Atom::new_const`, `Atom::default`, `base54`) from a valid UTF-8 string of
length at most `MAX_LEN` has a last byte different from `0xFF` (the niche
reserved for `Option<Atom>`). -/
theorem claim_C6 (cs : List Nat) (hv : ∀ v ∈ cs, ValidCp v) (n : Nat) (hn : n < 2 ^ 64) :
    lastByteOk (Atom.new (encodeList cs)) ∧
    lastByteOk (Atom.new_in (encodeList cs)) ∧
    lastByteOk (Atom.new_const (encodeList cs)) ∧
    lastByteOk Atom.default ∧
    (Atom.base54 n).last_byte ≠ 0xFF := by
  have hnew : lastByteOk (Atom.new (encodeList cs)) := by
    unfold Atom.new
    by_cases h16 : (encodeList cs).length ≤ MAX_LEN_INLINE
    · rw [if_pos h16]
      show (Atom.inline (InlineBuffer.new (encodeList cs))).last_byte ≠ 0xFF
      rcases Nat.lt_or_ge (encodeList cs).length 16 with hlt | hge
      · rw [inlineNewLastByteSmall _ hlt]
        omega
      · have he : (encodeList cs).length = 16 := by
          have h' : MAX_LEN_INLINE = 16 := rfl
          omega
        have hne : encodeList cs ≠ [] := by
          intro hnil
          rw [hnil] at he
          simp at he
        obtain ⟨b, hb⟩ : ∃ b, (encodeList cs).getLast? = some b := by
          cases htl : (encodeList cs).getLast? with
          | none => exact absurd (List.getLast?_eq_none_iff.1 htl) hne
          | some b => exact ⟨b, rfl⟩
        have hblt : b < 192 := encodeList_last_lt cs b hb
        show (InlineBuffer.new (encodeList cs)).getD 15 0 ≠ 0xFF
        rw [inlineFullEqText _ he]
        have hbr := getDLastBridge _ b hb
        rw [he] at hbr
        show (encodeList cs).getD 15 0 ≠ 0xFF
        rw [show (16:Nat) - 1 = 15 from rfl] at hbr
        rw [hbr]
        omega
    · rw [if_neg h16]
      unfold HeapBuffer.new
      by_cases hle : (encodeList cs).length ≤ MAX_LEN
      · rw [if_pos hle]
        show (heapAtomOf (encodeList cs)).last_byte ≠ 0xFF
        obtain ⟨h7, _⟩ := heapLenBytesSpec (encodeList cs).length hle
        have hsh : (encodeList cs).length >>> 56 < 32 := by
          rw [maxLenEq] at hle
          rw [Nat.shiftRight_eq_div_pow]
          omega
        show (usizeToLeBytes ((encodeList cs).length ||| HEAP_FLAG_USIZE)).getD 7 0 ≠ 0xFF
        rw [h7]
        omega
      · rw [if_neg hle]
        exact trivial
  refine ⟨hnew, hnew, ?_, ?_, ?_⟩
  · rw [newConstEqNewAtom]
    exact hnew
  · show lastByteOk (Atom.new_const [])
    rw [newConstEqNewAtom]
    show (Atom.inline (InlineBuffer.new [])).last_byte ≠ 0xFF
    rw [inlineNewLastByteSmall [] (by simp)]
    decide
  · show (Atom.inline (InlineBuffer.new (base54Str n))).last_byte ≠ 0xFF
    rw [inlineNewLastByteSmall _ (by have := base54Str_length n hn; omega)]
    have := base54Str_length n hn
    omega

theorem claim_C6_witness :
    ((∀ v ∈ [99], ValidCp v) ∧ 7 < 2 ^ 64) ∧
    (lastByteOk (Atom.new (encodeList [99])) ∧
     lastByteOk (Atom.new_in (encodeList [99])) ∧
     lastByteOk (Atom.new_const (encodeList [99])) ∧
     lastByteOk Atom.default ∧
     (Atom.base54 7).last_byte ≠ 0xFF) :=
  ⟨⟨by decide, by norm_num⟩, claim_C6 [99] (by decide) 7 (by norm_num)⟩

/-! ## Bit helpers for the UTF-8 decoder -/

theorem andMask31 (x : Nat) : x &&& 31 = x % 32 := by
  have h := Nat.and_pow_two_sub_one_eq_mod x 5
  norm_num at h
  exact h

theorem andMask63 (x : Nat) : x &&& 63 = x % 64 := by
  have h := Nat.and_pow_two_sub_one_eq_mod x 6
  norm_num at h
  exact h

theorem andMask7 (x : Nat) : x &&& 7 = x % 8 := by
  have h := Nat.and_pow_two_sub_one_eq_mod x 3
  norm_num at h
  exact h

theorem orShift (k a b : Nat) (h : b < 2 ^ k) : (a <<< k) ||| b = a * 2 ^ k + b := by
  rw [Nat.shiftLeft_eq, Nat.mul_comm a (2 ^ k)]
  exact orDisjoint k a b h

theorem orC0 (d : Nat) (h : d < 64) : 0xC0 ||| d = 0xC0 + d := by
  rw [show (0xC0 : Nat) = 2 ^ 6 * 3 from by norm_num]
  exact orDisjoint 6 3 d (by omega)

theorem orE0 (d : Nat) (h : d < 32) : 0xE0 ||| d = 0xE0 + d := by
  rw [show (0xE0 : Nat) = 2 ^ 5 * 7 from by norm_num]
  exact orDisjoint 5 7 d (by omega)

theorem orF0 (d : Nat) (h : d < 16) : 0xF0 ||| d = 0xF0 + d := by
  rw [show (0xF0 : Nat) = 2 ^ 4 * 15 from by norm_num]
  exact orDisjoint 4 15 d (by omega)

theorem or80 (d : Nat) (h : d < 128) : 0x80 ||| d = 0x80 + d := by
  rw [show (0x80 : Nat) = 2 ^ 7 * 1 from by norm_num]
  exact orDisjoint 7 1 d (by omega)

/-! ## `crates/oxc_parser/src/lexer/source.rs`

The `Source` pointer triple `(start, end, ptr)` is modelled by the byte string
(`start` to `end`) plus the cursor offset (`ptr - start`).  A `SourcePosition`
is a snapshot of `ptr`, modelled by the offset it points at. -/

/-- Modelled from the spec: `crate::MAX_LEN` of `oxc_parser` (the crate root is
not part of the sources).  The spec fixes its role: offsets fit in `u32`
("Cannot overflow `u32` because of `MAX_LEN` check in `Source::new`"), and an
over-long source is replaced by a one-byte sentinel. -/
def SOURCE_MAX_LEN : Nat := 2 ^ 32 - 1

structure Source where
  bytes : List Nat
  pos : Nat
deriving DecidableEq

/-- `Source::new`: substitute the sentinel source `"\0"` when over the size
limit; cursor starts at `start`. -/
def Source.new (source : List Nat) : Source :=
  if source.length > SOURCE_MAX_LEN then { bytes := [0], pos := 0 }
  else { bytes := source, pos := 0 }

/-- `Source::whole()`. -/
def Source.whole (s : Source) : List Nat := s.bytes

/-- `Source::remaining()`: bytes from `ptr` to `end`. -/
def Source.remaining (s : Source) : List Nat := s.bytes.drop s.pos

/-- `Source::is_eof()`: `ptr == end`. -/
def Source.is_eof (s : Source) : Bool := s.pos == s.bytes.length

/-- `Source::offset()`: `ptr - start` (fits `u32` by the `MAX_LEN` check). -/
def Source.offset (s : Source) : Nat := s.pos

/-- `Source::position()`: snapshot of `ptr`. -/
def Source.position (s : Source) : Nat := s.pos

/-- `Source::set_position(pos)`. -/
def Source.set_position (s : Source) (p : Nat) : Source := { s with pos := p }

/-- `is_utf8_cont_byte`: `byte >= 0x80 && byte < 0xC0`. -/
def is_utf8_cont_byte (byte : Nat) : Bool := decide (0x80 ≤ byte) && decide (byte < 0xC0)

/-- `is_utf8_valid_byte`: `byte < 0xF8`. -/
def is_utf8_valid_byte (byte : Nat) : Bool := decide (byte < 0xF8)

/-- `const CONT_MASK: u8 = 0b00111111;` -/
def CONT_MASK : Nat := 0b00111111

/-- `utf8_first_byte(byte, width)`: `byte & (0x7F >> width)`. -/
def utf8_first_byte (byte width : Nat) : Nat := byte &&& (0x7F >>> width)

/-- `utf8_acc_cont_byte(ch, byte)`: `(ch << 6) | (byte & CONT_MASK)`. -/
def utf8_acc_cont_byte (ch byte : Nat) : Nat := (ch <<< 6) ||| (byte &&& CONT_MASK)

/-- `Source::back(n)`: move the cursor back `n` bytes.  The three `assert!`s
(panics, modelled as `none`): `n > 0`; `n <= bytes_consumed`; the byte landed
on is not a UTF-8 continuation byte. -/
def Source.back (s : Source) (n : Nat) : Option Source :=
  if n = 0 then none
  else
    let bytes_consumed := s.pos
    if n > bytes_consumed then none
    else
      let byte := s.bytes.getD (s.pos - n) 0
      if is_utf8_cont_byte byte then none
      else some { s with pos := s.pos - n }

/-- `Source::next_byte()`: `None` at EOF, else the byte under `ptr`, advancing. -/
def Source.next_byte (s : Source) : Option (Nat × Source) :=
  if s.pos = s.bytes.length then none
  else some (s.bytes.getD s.pos 0, { s with pos := s.pos + 1 })

/-- `Source::next_byte_unchecked()`: the byte under `ptr`, advancing, with no
bounds check (reads 0 past the end, where the Rust code has UB; the safety
invariant keeps all calls in bounds). -/
def Source.next_byte_unchecked (s : Source) : Nat × Source :=
  (s.bytes.getD s.pos 0, { s with pos := s.pos + 1 })

/-- `Source::next_code_point()`: the classical UTF-8 decoder copied from
`core::str::validations`, reading 1-4 bytes by the lead byte's top bits. -/
def Source.next_code_point (s : Source) : Option (Nat × Source) :=
  match s.next_byte with
  | none => none
  | some (x, s1) =>
    if x < 128 then some (x, s1)
    else
      let init := utf8_first_byte x 2
      let ys2 := s1.next_byte_unchecked
      let y := ys2.1
      let ch := utf8_acc_cont_byte init y
      if 0xE0 ≤ x then
        let zs3 := ys2.2.next_byte_unchecked
        let z := zs3.1
        let y_z := utf8_acc_cont_byte (y &&& CONT_MASK) z
        let ch2 := (init <<< 12) ||| y_z
        if 0xF0 ≤ x then
          let ws4 := zs3.2.next_byte_unchecked
          some (((init &&& 7) <<< 18) ||| utf8_acc_cont_byte y_z ws4.1, ws4.2)
        else
          some (ch2, zs3.2)
      else
        some (ch, ys2.2)

/-- `Source::next_char()`: `next_code_point`, reinterpreted as a `char`
(`char::from_u32_unchecked`; scalar values are already our representation). -/
def Source.next_char (s : Source) : Option (Nat × Source) := s.next_code_point

/-- `Source::peek_char()`: `self.clone().next_char()` without advancing. -/
def Source.peek_char (s : Source) : Option Nat := s.next_char.map (·.1)

/-- `Source::peek_byte()`. -/
def Source.peek_byte (s : Source) : Option Nat :=
  if s.pos = s.bytes.length then none else some (s.bytes.getD s.pos 0)

/-! ## The decoder inverts the encoder -/

theorem getDConcat (pre l post : List Nat) (i : Nat) :
    (pre ++ l ++ post).getD (pre.length + i) 0 = (l ++ post).getD i 0 := by
  rw [List.append_assoc]
  exact getDAppendRight pre (l ++ post) i

theorem nextByteAt (bytes : List Nat) (pos : Nat) (h : pos < bytes.length) :
    Source.next_byte ⟨bytes, pos⟩ = some (bytes.getD pos 0, ⟨bytes, pos + 1⟩) := by
  show (if pos = bytes.length then none else some (bytes.getD pos 0, (⟨bytes, pos + 1⟩ : Source)))
    = _
  rw [if_neg (by omega)]

/-- `next_code_point` reads back exactly the scalar value the UTF-8 encoder
wrote, and advances the cursor by the encoding's length. -/
theorem decodeStep (pre post : List Nat) (v : Nat) (hv : v < 0x110000) :
    Source.next_code_point ⟨pre ++ utf8Encode v ++ post, pre.length⟩ =
      some (v, ⟨pre ++ utf8Encode v ++ post, pre.length + (utf8Encode v).length⟩) := by
  by_cases h1 : v < 0x80
  · have henc : utf8Encode v = [v] := by
      unfold utf8Encode
      rw [if_pos h1]
    rw [henc]
    unfold Source.next_code_point
    rw [nextByteAt _ _ (by
      simp only [List.length_append, List.length_cons, List.length_nil]
      omega)]
    simp only []
    have hxbyte : (pre ++ [v] ++ post).getD pre.length 0 = v := by
      have h0 := getDConcat pre [v] post 0
      simpa using h0
    rw [hxbyte, if_pos h1]
    show _ = some (v, (⟨pre ++ [v] ++ post, pre.length + 1⟩ : Source))
    rfl
  by_cases h2 : v < 0x800
  · have henc : utf8Encode v = [0xC0 ||| (v >>> 6), 0x80 ||| (v &&& 0x3F)] := by
      unfold utf8Encode
      rw [if_neg h1, if_pos h2]
    have hshr : v >>> 6 = v / 64 := by
      rw [Nat.shiftRight_eq_div_pow]
    have hx : 0xC0 ||| (v >>> 6) = 192 + v / 64 := by
      rw [hshr]
      exact orC0 _ (by omega)
    have hy : 0x80 ||| (v &&& 0x3F) = 128 + v % 64 := by
      rw [show (0x3F : Nat) = 63 from rfl, andMask63]
      exact or80 _ (by omega)
    rw [henc]
    unfold Source.next_code_point
    rw [nextByteAt _ _ (by
      simp only [List.length_append, List.length_cons, List.length_nil]
      omega)]
    simp only []
    have hxbyte : (pre ++ [0xC0 ||| (v >>> 6), 0x80 ||| (v &&& 0x3F)] ++ post).getD pre.length 0 =
        192 + v / 64 := by
      have h0 := getDConcat pre [0xC0 ||| (v >>> 6), 0x80 ||| (v &&& 0x3F)] post 0
      rw [← hx]
      simpa using h0
    have hybyte : (pre ++ [0xC0 ||| (v >>> 6), 0x80 ||| (v &&& 0x3F)] ++ post).getD
        (pre.length + 1) 0 = 128 + v % 64 := by
      have h0 := getDConcat pre [0xC0 ||| (v >>> 6), 0x80 ||| (v &&& 0x3F)] post 1
      rw [← hy]
      simpa using h0
    rw [hxbyte, if_neg (by omega)]
    simp only [Source.next_byte_unchecked]
    rw [hybyte, if_neg (by omega)]
    have hfb : utf8_first_byte (192 + v / 64) 2 = v / 64 := by
      unfold utf8_first_byte
      rw [show (0x7F : Nat) >>> 2 = 31 from by decide, andMask31]
      omega
    have hacc : utf8_acc_cont_byte (v / 64) (128 + v % 64) = v := by
      unfold utf8_acc_cont_byte CONT_MASK
      rw [andMask63, orShift 6 _ _ (by omega)]
      rw [show (2 : Nat) ^ 6 = 64 from rfl]
      omega
    rw [hfb, hacc]
    show _ = some (v, (⟨_, pre.length + 2⟩ : Source))
    rw [show pre.length + 1 + 1 = pre.length + 2 from by omega]
  by_cases h3 : v < 0x10000
  · have henc : utf8Encode v =
        [0xE0 ||| (v >>> 12), 0x80 ||| ((v >>> 6) &&& 0x3F), 0x80 ||| (v &&& 0x3F)] := by
      unfold utf8Encode
      rw [if_neg h1, if_neg h2, if_pos h3]
    have hs12 : v >>> 12 = v / 4096 := by
      rw [Nat.shiftRight_eq_div_pow]
    have hs6 : v >>> 6 = v / 64 := by
      rw [Nat.shiftRight_eq_div_pow]
    have hx : 0xE0 ||| (v >>> 12) = 224 + v / 4096 := by
      rw [hs12]
      exact orE0 _ (by omega)
    have hy : 0x80 ||| ((v >>> 6) &&& 0x3F) = 128 + (v / 64) % 64 := by
      rw [hs6, show (0x3F : Nat) = 63 from rfl, andMask63]
      exact or80 _ (by omega)
    have hz : 0x80 ||| (v &&& 0x3F) = 128 + v % 64 := by
      rw [show (0x3F : Nat) = 63 from rfl, andMask63]
      exact or80 _ (by omega)
    rw [henc]
    unfold Source.next_code_point
    rw [nextByteAt _ _ (by
      simp only [List.length_append, List.length_cons, List.length_nil]
      omega)]
    simp only []
    have hxbyte : (pre ++ [0xE0 ||| (v >>> 12), 0x80 ||| ((v >>> 6) &&& 0x3F),
        0x80 ||| (v &&& 0x3F)] ++ post).getD pre.length 0 = 224 + v / 4096 := by
      have h0 := getDConcat pre [0xE0 ||| (v >>> 12), 0x80 ||| ((v >>> 6) &&& 0x3F),
        0x80 ||| (v &&& 0x3F)] post 0
      rw [← hx]
      simpa using h0
    have hybyte : (pre ++ [0xE0 ||| (v >>> 12), 0x80 ||| ((v >>> 6) &&& 0x3F),
        0x80 ||| (v &&& 0x3F)] ++ post).getD (pre.length + 1) 0 = 128 + (v / 64) % 64 := by
      have h0 := getDConcat pre [0xE0 ||| (v >>> 12), 0x80 ||| ((v >>> 6) &&& 0x3F),
        0x80 ||| (v &&& 0x3F)] post 1
      rw [← hy]
      simpa using h0
    have hzbyte : (pre ++ [0xE0 ||| (v >>> 12), 0x80 ||| ((v >>> 6) &&& 0x3F),
        0x80 ||| (v &&& 0x3F)] ++ post).getD (pre.length + 2) 0 = 128 + v % 64 := by
      have h0 := getDConcat pre [0xE0 ||| (v >>> 12), 0x80 ||| ((v >>> 6) &&& 0x3F),
        0x80 ||| (v &&& 0x3F)] post 2
      rw [← hz]
      simpa using h0
    rw [hxbyte, if_neg (by omega)]
    simp only [Source.next_byte_unchecked]
    rw [hybyte, if_pos (by omega : (0xE0 : Nat) ≤ 224 + v / 4096)]
    rw [show pre.length + 1 + 1 = pre.length + 2 from by omega, hzbyte]
    rw [if_neg (by omega : ¬ (0xF0 : Nat) ≤ 224 + v / 4096)]
    have hfb : utf8_first_byte (224 + v / 4096) 2 = v / 4096 := by
      unfold utf8_first_byte
      rw [show (0x7F : Nat) >>> 2 = 31 from by decide, andMask31]
      omega
    have hyz : utf8_acc_cont_byte ((128 + (v / 64) % 64) &&& CONT_MASK) (128 + v % 64) =
        ((v / 64) % 64) * 64 + v % 64 := by
      unfold utf8_acc_cont_byte CONT_MASK
      rw [andMask63, andMask63, orShift 6 _ _ (by omega)]
      rw [show (2 : Nat) ^ 6 = 64 from rfl]
      omega
    have hch : (utf8_first_byte (224 + v / 4096) 2 <<< 12) |||
        utf8_acc_cont_byte ((128 + (v / 64) % 64) &&& CONT_MASK) (128 + v % 64) = v := by
      rw [hfb, hyz, orShift 12 _ _ (by omega)]
      rw [show (2 : Nat) ^ 12 = 4096 from rfl]
      omega
    rw [hch]
    show _ = some (v, (⟨_, pre.length + 3⟩ : Source))
    rw [show pre.length + 2 + 1 = pre.length + 3 from by omega]
  · have henc : utf8Encode v =
        [0xF0 ||| (v >>> 18), 0x80 ||| ((v >>> 12) &&& 0x3F), 0x80 ||| ((v >>> 6) &&& 0x3F),
         0x80 ||| (v &&& 0x3F)] := by
      unfold utf8Encode
      rw [if_neg h1, if_neg h2, if_neg h3]
    have hs18 : v >>> 18 = v / 262144 := by
      rw [Nat.shiftRight_eq_div_pow]
    have hs12 : v >>> 12 = v / 4096 := by
      rw [Nat.shiftRight_eq_div_pow]
    have hs6 : v >>> 6 = v / 64 := by
      rw [Nat.shiftRight_eq_div_pow]
    have hx : 0xF0 ||| (v >>> 18) = 240 + v / 262144 := by
      rw [hs18]
      exact orF0 _ (by omega)
    have hy : 0x80 ||| ((v >>> 12) &&& 0x3F) = 128 + (v / 4096) % 64 := by
      rw [hs12, show (0x3F : Nat) = 63 from rfl, andMask63]
      exact or80 _ (by omega)
    have hz : 0x80 ||| ((v >>> 6) &&& 0x3F) = 128 + (v / 64) % 64 := by
      rw [hs6, show (0x3F : Nat) = 63 from rfl, andMask63]
      exact or80 _ (by omega)
    have hw : 0x80 ||| (v &&& 0x3F) = 128 + v % 64 := by
      rw [show (0x3F : Nat) = 63 from rfl, andMask63]
      exact or80 _ (by omega)
    rw [henc]
    unfold Source.next_code_point
    rw [nextByteAt _ _ (by
      simp only [List.length_append, List.length_cons, List.length_nil]
      omega)]
    simp only []
    have hxbyte : (pre ++ [0xF0 ||| (v >>> 18), 0x80 ||| ((v >>> 12) &&& 0x3F),
        0x80 ||| ((v >>> 6) &&& 0x3F), 0x80 ||| (v &&& 0x3F)] ++ post).getD pre.length 0 =
        240 + v / 262144 := by
      have h0 := getDConcat pre [0xF0 ||| (v >>> 18), 0x80 ||| ((v >>> 12) &&& 0x3F),
        0x80 ||| ((v >>> 6) &&& 0x3F), 0x80 ||| (v &&& 0x3F)] post 0
      rw [← hx]
      simpa using h0
    have hybyte : (pre ++ [0xF0 ||| (v >>> 18), 0x80 ||| ((v >>> 12) &&& 0x3F),
        0x80 ||| ((v >>> 6) &&& 0x3F), 0x80 ||| (v &&& 0x3F)] ++ post).getD
        (pre.length + 1) 0 = 128 + (v / 4096) % 64 := by
      have h0 := getDConcat pre [0xF0 ||| (v >>> 18), 0x80 ||| ((v >>> 12) &&& 0x3F),
        0x80 ||| ((v >>> 6) &&& 0x3F), 0x80 ||| (v &&& 0x3F)] post 1
      rw [← hy]
      simpa using h0
    have hzbyte : (pre ++ [0xF0 ||| (v >>> 18), 0x80 ||| ((v >>> 12) &&& 0x3F),
        0x80 ||| ((v >>> 6) &&& 0x3F), 0x80 ||| (v &&& 0x3F)] ++ post).getD
        (pre.length + 2) 0 = 128 + (v / 64) % 64 := by
      have h0 := getDConcat pre [0xF0 ||| (v >>> 18), 0x80 ||| ((v >>> 12) &&& 0x3F),
        0x80 ||| ((v >>> 6) &&& 0x3F), 0x80 ||| (v &&& 0x3F)] post 2
      rw [← hz]
      simpa using h0
    have hwbyte : (pre ++ [0xF0 ||| (v >>> 18), 0x80 ||| ((v >>> 12) &&& 0x3F),
        0x80 ||| ((v >>> 6) &&& 0x3F), 0x80 ||| (v &&& 0x3F)] ++ post).getD
        (pre.length + 3) 0 = 128 + v % 64 := by
      have h0 := getDConcat pre [0xF0 ||| (v >>> 18), 0x80 ||| ((v >>> 12) &&& 0x3F),
        0x80 ||| ((v >>> 6) &&& 0x3F), 0x80 ||| (v &&& 0x3F)] post 3
      rw [← hw]
      simpa using h0
    rw [hxbyte, if_neg (by omega)]
    simp only [Source.next_byte_unchecked]
    rw [hybyte, if_pos (by omega : (0xE0 : Nat) ≤ 240 + v / 262144)]
    rw [show pre.length + 1 + 1 = pre.length + 2 from by omega, hzbyte]
    rw [if_pos (by omega : (0xF0 : Nat) ≤ 240 + v / 262144)]
    rw [show pre.length + 2 + 1 = pre.length + 3 from by omega, hwbyte]
    have hfb : utf8_first_byte (240 + v / 262144) 2 = 16 + v / 262144 := by
      unfold utf8_first_byte
      rw [show (0x7F : Nat) >>> 2 = 31 from by decide, andMask31]
      omega
    have hyz : utf8_acc_cont_byte ((128 + (v / 4096) % 64) &&& CONT_MASK)
        (128 + (v / 64) % 64) = ((v / 4096) % 64) * 64 + (v / 64) % 64 := by
      unfold utf8_acc_cont_byte CONT_MASK
      rw [andMask63, andMask63, orShift 6 _ _ (by omega)]
      rw [show (2 : Nat) ^ 6 = 64 from rfl]
      omega
    have hch : ((utf8_first_byte (240 + v / 262144) 2 &&& 7) <<< 18) |||
        utf8_acc_cont_byte (utf8_acc_cont_byte ((128 + (v / 4096) % 64) &&& CONT_MASK)
          (128 + (v / 64) % 64)) (128 + v % 64) = v := by
      rw [hyz]
      have hacc2 : utf8_acc_cont_byte (((v / 4096) % 64) * 64 + (v / 64) % 64)
          (128 + v % 64) = (((v / 4096) % 64) * 64 + (v / 64) % 64) * 64 + v % 64 := by
        unfold utf8_acc_cont_byte CONT_MASK
        rw [andMask63, orShift 6 _ _ (by omega)]
        rw [show (2 : Nat) ^ 6 = 64 from rfl]
        omega
      rw [hacc2, hfb, andMask7]
      rw [show (16 + v / 262144) % 8 = v / 262144 from by omega]
      rw [orShift 18 _ _ (by omega)]
      rw [show (2 : Nat) ^ 18 = 262144 from rfl]
      omega
    rw [hch]
    show _ = some (v, (⟨_, pre.length + 4⟩ : Source))
    rw [show pre.length + 3 + 1 = pre.length + 4 from by omega]

/-! ## C8: `next_char` walks the source in step with `offset` -/

/-- Iterated `next_char`: the list of scalar values returned by `k` successive
calls (`none` if any call hits EOF). -/
def Source.nextChars : Source → Nat → Option (List Nat × Source)
  | s, 0 => some ([], s)
  | s, k + 1 =>
    match s.next_char with
    | none => none
    | some cs1 =>
      match Source.nextChars cs1.2 k with
      | none => none
      | some rest => some (cs1.1 :: rest.1, rest.2)

theorem nextCharsAux (k : Nat) : ∀ (pre cs : List Nat), (∀ v ∈ cs, ValidCp v) →
    k ≤ cs.length →
    Source.nextChars ⟨pre ++ encodeList cs, pre.length⟩ k =
      some (cs.take k,
        ⟨pre ++ encodeList cs, pre.length + (encodeList (cs.take k)).length⟩) := by
  induction k with
  | zero =>
    intro pre cs _ _
    simp [Source.nextChars, encodeList]
  | succ k ih =>
    intro pre cs hv hk
    match cs, hk with
    | c :: cs', hk =>
      have hvc : c < 0x110000 := by
        have h := hv c (List.mem_cons_self c cs')
        unfold ValidCp at h
        omega
      show Source.nextChars ⟨pre ++ encodeList (c :: cs'), pre.length⟩ (k + 1) = _
      unfold Source.nextChars
      have hb : pre ++ encodeList (c :: cs') = pre ++ utf8Encode c ++ encodeList cs' := by
        show pre ++ (utf8Encode c ++ encodeList cs') = _
        rw [← List.append_assoc]
      rw [hb]
      show (match Source.next_char ⟨pre ++ utf8Encode c ++ encodeList cs', pre.length⟩ with
        | none => none
        | some cs1 =>
          match Source.nextChars cs1.2 k with
          | none => none
          | some rest => some (cs1.1 :: rest.1, rest.2)) = _
      rw [show Source.next_char ⟨pre ++ utf8Encode c ++ encodeList cs', pre.length⟩ =
        Source.next_code_point ⟨pre ++ utf8Encode c ++ encodeList cs', pre.length⟩ from rfl]
      rw [decodeStep pre (encodeList cs') c hvc]
      simp only []
      have hpos : pre.length + (utf8Encode c).length = (pre ++ utf8Encode c).length := by
        rw [List.length_append]
      rw [hpos]
      have ih' := ih (pre ++ utf8Encode c) cs'
        (fun v hm => hv v (List.mem_cons_of_mem c hm)) (by simpa using hk)
      rw [ih']
      simp only [List.take_succ_cons]
      have hlen2 : (pre ++ utf8Encode c).length + (encodeList (cs'.take k)).length =
          pre.length + (encodeList (c :: cs'.take k)).length := by
        show _ = pre.length + (utf8Encode c ++ encodeList (cs'.take k)).length
        rw [List.length_append, List.length_append]
        omega
      rw [hlen2]

/-- C8: for a `Source` built from a valid UTF-8 string (within the size
limit), any sequence of `next_char()` calls that does not exhaust the source
returns exactly the successive characters of the string, and `offset()` equals
the sum of the UTF-8 encoded lengths of the characters returned. -/
theorem claim_C8 (cs : List Nat) (hv : ∀ v ∈ cs, ValidCp v)
    (hmax : (encodeList cs).length ≤ SOURCE_MAX_LEN) (k : Nat) (hk : k ≤ cs.length) :
    ∃ s', Source.nextChars (Source.new (encodeList cs)) k = some (cs.take k, s') ∧
      s'.offset = (encodeList (cs.take k)).length := by
  have hnew : Source.new (encodeList cs) = ⟨encodeList cs, 0⟩ := by
    unfold Source.new
    rw [if_neg (by omega)]
  rw [hnew]
  have h := nextCharsAux k [] cs hv hk
  simp only [List.nil_append, List.length_nil] at h
  refine ⟨⟨encodeList cs, (encodeList (cs.take k)).length⟩, ?_, rfl⟩
  rw [show (0 : Nat) + (encodeList (cs.take k)).length = (encodeList (cs.take k)).length
    from by omega] at h
  exact h

theorem claim_C8_witness :
    ((∀ v ∈ [104, 0x20AC, 105], ValidCp v) ∧
      (encodeList [104, 0x20AC, 105]).length ≤ SOURCE_MAX_LEN ∧ 2 ≤ [104, 0x20AC, 105].length) ∧
    (∃ s', Source.nextChars (Source.new (encodeList [104, 0x20AC, 105])) 2 =
        some ([104, 0x20AC, 105].take 2, s') ∧
      s'.offset = (encodeList ([104, 0x20AC, 105].take 2)).length) :=
  ⟨⟨by decide, by decide, by decide⟩,
   claim_C8 [104, 0x20AC, 105] (by decide) (by decide) 2 (by decide)⟩

/-! ## C10: `Source::back` panics exactly when the move is invalid -/

/-- C10: `back(n)` returns normally iff `0 < n`, `n` is at most the number of
bytes already consumed (`offset()`), and the byte `n` bytes before the cursor
is not a UTF-8 continuation byte; all other cases (including `n = 0`) panic.
On success the position moves back exactly `n` bytes. -/
theorem claim_C10 (s : Source) (n : Nat) :
    ((s.back n).isSome = true ↔
      0 < n ∧ n ≤ s.offset ∧ is_utf8_cont_byte (s.bytes.getD (s.pos - n) 0) = false) ∧
    ∀ s', s.back n = some s' → s'.bytes = s.bytes ∧ s'.pos = s.pos - n := by
  unfold Source.back Source.offset
  simp only []
  split_ifs with h0 hgt hcont
  · constructor
    · simp only [Option.isSome_none, Bool.false_eq_true, false_iff]
      omega
    · intro s' hs'
      simp at hs'
  · constructor
    · simp only [Option.isSome_none, Bool.false_eq_true, false_iff]
      omega
    · intro s' hs'
      simp at hs'
  · constructor
    · simp only [Option.isSome_none, Bool.false_eq_true, false_iff]
      intro hcontra
      rw [hcont] at hcontra
      simp at hcontra
    · intro s' hs'
      simp at hs'
  · constructor
    · simp only [Option.isSome_some, true_iff]
      refine ⟨by omega, by omega, ?_⟩
      simp only [Bool.not_eq_true] at hcont
      exact hcont
    · intro s' hs'
      simp only [Option.some_inj] at hs'
      exact ⟨by rw [← hs'], by rw [← hs']⟩

theorem claim_C10_witness :
    (Source.back ⟨[0xC3, 0xA9, 97], 3⟩ 3).isSome = true ∧
    (Source.back ⟨[0xC3, 0xA9, 97], 3⟩ 2).isSome = false ∧
    (Source.back ⟨[0xC3, 0xA9, 97], 3⟩ 0).isSome = false ∧
    (∀ s', Source.back ⟨[0xC3, 0xA9, 97], 3⟩ 3 = some s' →
      s'.bytes = [0xC3, 0xA9, 97] ∧ s'.pos = 0) := by
  have h3 := claim_C10 ⟨[0xC3, 0xA9, 97], 3⟩ 3
  have h2 := claim_C10 ⟨[0xC3, 0xA9, 97], 3⟩ 2
  have h0 := claim_C10 ⟨[0xC3, 0xA9, 97], 3⟩ 0
  refine ⟨h3.1.mpr ⟨by decide, by decide, by decide⟩, ?_, ?_, h3.2⟩
  · by_contra hc
    simp only [Bool.not_eq_false] at hc
    obtain ⟨-, -, hcont⟩ := h2.1.mp hc
    revert hcont
    decide
  · by_contra hc
    simp only [Bool.not_eq_false] at hc
    obtain ⟨hpos, -, -⟩ := h0.1.mp hc
    omega

/-! ## `crates/oxc_parser/src/lexer/identifier.rs`: the ASCII fast path -/

/-- Modelled from the spec: `oxc_syntax::identifier::is_identifier_part_ascii_byte`
(the `oxc_syntax` crate is not among the sources).  Spec section 4.5: `b` is
`_` or `$` or an ASCII letter or an ASCII digit. -/
def is_identifier_part_ascii_byte (b : Nat) : Bool :=
  b == 95 || b == 36 || (65 ≤ b && b ≤ 90) || (97 ≤ b && b ≤ 122) || (48 ≤ b && b ≤ 57)

/-- Modelled from the spec: `oxc_syntax::identifier::is_identifier_start_ascii_byte`.
Spec section 4.5: `b` is `_` or `$` or an ASCII letter. -/
def is_identifier_start_ascii_byte (b : Nat) : Bool :=
  b == 95 || b == 36 || (65 ≤ b && b ≤ 90) || (97 ≤ b && b ≤ 122)

/-- `Lexer::identifier_tail_consume_ascii`: eat bytes from the `BytesIter`
(modelled by its remaining byte list) while they are ASCII identifier-part
bytes; return the first non-matching byte (`none` at EOF) and the iterator
left positioned on it. -/
def identifier_tail_consume_ascii : List Nat → Option Nat × List Nat
  | [] => (none, [])
  | b :: rest =>
    if !is_identifier_part_ascii_byte b then (some b, b :: rest)
    else identifier_tail_consume_ascii rest

/-- Number of leading ASCII identifier-part bytes: how far both the batched
loop of `identifier_name_handler` (`BATCH_SIZE = 32`) and the unbatched loop
of `identifier_name_handler_unbatched` advance `curr` - each reads a byte,
breaks when it is not `is_identifier_part_ascii_byte`, else `curr = curr.add(1)`,
with an EOF check before each read in the unbatched loop. -/
def asciiRunLen : List Nat → Nat
  | [] => 0
  | b :: rest => if is_identifier_part_ascii_byte b then asciiRunLen rest + 1 else 0

/-- Outcome of `Lexer::identifier_name_handler`: either the end of the
identifier was found (cursor committed to just after it, text returned minus
its first char - for both the EOF and the ASCII-delimiter endings), or control
was delegated to the cold Unicode / backslash paths with the byte position
where the non-ASCII-identifier byte was found. -/
inductive IdTail where
  | done (text : List Nat) (committed : Source)
  | unicode (curr : Nat)
  | backslash (curr : Nat)
deriving DecidableEq

/-- `Lexer::identifier_name_handler`.  Safety preconditions of the Rust code:
the source is not exhausted and the next char is ASCII.  The iterator starts
after the first byte, consumes the run of ASCII identifier-part bytes, then
dispatches on the stopping byte: EOF commits to end of source; a non-ASCII
byte goes to the Unicode path; `\` (0x5C) goes to the escape path; any other
ASCII byte ends the identifier, committing the cursor onto that byte. -/
def identifier_name_handler (s : Source) : IdTail :=
  let after_first := s.pos + 1
  let curr := after_first + asciiRunLen (s.bytes.drop after_first)
  if curr ≥ s.bytes.length then
    .done (s.bytes.drop after_first) ⟨s.bytes, s.bytes.length⟩
  else
    let next_byte := s.bytes.getD curr 0
    if ¬ next_byte < 128 then .unicode curr
    else if next_byte = 92 then .backslash curr
    else .done ((s.bytes.drop after_first).take (curr - after_first)) ⟨s.bytes, curr⟩

theorem asciiRunLenAppend (l : List Nat) (b : Nat) (r : List Nat)
    (hl : ∀ x ∈ l, is_identifier_part_ascii_byte x = true)
    (hb : is_identifier_part_ascii_byte b = false) :
    asciiRunLen (l ++ b :: r) = l.length := by
  induction l with
  | nil =>
    show (if is_identifier_part_ascii_byte b then _ else 0) = 0
    rw [hb]
    rfl
  | cons x l ih =>
    show (if is_identifier_part_ascii_byte x then asciiRunLen (l ++ b :: r) + 1 else 0) = _
    rw [hl x (List.mem_cons_self x l), ih (fun y hy => hl y (List.mem_cons_of_mem x hy))]
    simp

/-- The `identifier_tail_consume_ascii` loop stops exactly at the first
non-identifier-part byte, with the iterator on it. -/
theorem identifierTailConsumeAsciiSpec (l : List Nat) (b : Nat) (r : List Nat)
    (hl : ∀ x ∈ l, is_identifier_part_ascii_byte x = true)
    (hb : is_identifier_part_ascii_byte b = false) :
    identifier_tail_consume_ascii (l ++ b :: r) = (some b, b :: r) := by
  induction l with
  | nil =>
    show (if !is_identifier_part_ascii_byte b then _ else _) = _
    rw [hb]
    rfl
  | cons x l ih =>
    show (if !is_identifier_part_ascii_byte x then _ else identifier_tail_consume_ascii (l ++ b :: r)) = _
    rw [hl x (List.mem_cons_self x l)]
    exact ih (fun y hy => hl y (List.mem_cons_of_mem x hy))

/-- C4: for a source whose remaining bytes are a run of one or more ASCII
identifier-part bytes followed by an ASCII byte `b` that is neither an
identifier-part byte nor `\`, the scanner consumes exactly the run (the
returned text prefixed with the first byte is the run) and leaves the cursor
positioned on `b`. -/
theorem claim_C4 (consumed run rest : List Nat) (b : Nat)
    (hrun : run ≠ [])
    (hpart : ∀ x ∈ run, is_identifier_part_ascii_byte x = true)
    (hb : b < 128) (hbnot : is_identifier_part_ascii_byte b = false) (hbs : b ≠ 92) :
    identifier_name_handler ⟨consumed ++ run ++ b :: rest, consumed.length⟩ =
      .done (run.drop 1) ⟨consumed ++ run ++ b :: rest, consumed.length + run.length⟩ ∧
    (consumed ++ run ++ b :: rest).getD (consumed.length + run.length) 0 = b := by
  match run, hrun with
  | f :: runTail, _ =>
    have hgetb : (consumed ++ (f :: runTail) ++ b :: rest).getD
        (consumed.length + (f :: runTail).length) 0 = b := by
      have h0 := getDConcat consumed (f :: runTail) rest ((f :: runTail).length)
      rw [show consumed.length + (f :: runTail).length =
        consumed.length + ((f :: runTail).length + 0) from by omega] at h0 ⊢
      rw [getDConcat consumed (f :: runTail) (b :: rest) ((f :: runTail).length + 0)]
      rw [show (f :: runTail).length + 0 = (f :: runTail).length from by omega]
      rw [show ((f :: runTail) ++ b :: rest).getD (f :: runTail).length 0 =
        ((f :: runTail) ++ b :: rest).getD ((f :: runTail).length + 0) 0 from by
          rw [show (f :: runTail).length + 0 = (f :: runTail).length from by omega]]
      rw [getDAppendRight (f :: runTail) (b :: rest) 0]
      rfl
    refine ⟨?_, hgetb⟩
    unfold identifier_name_handler
    simp only []
    have hdrop : (consumed ++ (f :: runTail) ++ b :: rest).drop (consumed.length + 1) =
        runTail ++ b :: rest := by
      have : consumed ++ (f :: runTail) ++ b :: rest =
          (consumed ++ [f]) ++ (runTail ++ b :: rest) := by
        simp
      rw [this, show consumed.length + 1 = (consumed ++ [f]).length from by simp]
      exact List.drop_left _ _
    rw [hdrop]
    rw [asciiRunLenAppend runTail b rest
      (fun y hy => hpart y (List.mem_cons_of_mem f hy)) hbnot]
    have hlen : (consumed ++ (f :: runTail) ++ b :: rest).length =
        consumed.length + runTail.length + rest.length + 2 := by
      simp only [List.length_append, List.length_cons]
      omega
    rw [if_neg (by rw [hlen]; omega)]
    rw [show consumed.length + 1 + runTail.length =
      consumed.length + (f :: runTail).length from by simp only [List.length_cons]; omega]
    rw [hgetb]
    rw [if_neg (by omega)]
    rw [if_neg hbs]
    rw [show consumed.length + (f :: runTail).length - (consumed.length + 1) =
      runTail.length from by simp only [List.length_cons]; omega]
    rw [List.take_left' (rfl : runTail.length = runTail.length)]
    rfl

theorem claim_C4_witness :
    identifier_name_handler ⟨[97, 98, 32, 99], 0⟩ =
      .done [98] ⟨[97, 98, 32, 99], 2⟩ ∧
    ([97, 98, 32, 99] : List Nat).getD 2 0 = 32 :=
  claim_C4 [] [97, 98] [99] 32 (by decide) (by decide) (by decide) (by decide) (by decide)

/-! ## `crates/oxc_parser/src/lexer/mod.rs`: the lexer core

`byte_handlers.rs` (the 256-entry per-byte dispatch) is not among the sources;
per the spec (section 4.6) it is a table of handlers which, given the byte at
the cursor, advance the cursor, build the current token, may append
diagnostics, and return a token `Kind` (`Kind::Skip` for consumed trivia).
We therefore parameterise the lexer core over such a handler table
(`ByteHandlers`), requiring only what the spec guarantees and what
`read_next_token`'s own loop needs to terminate: a handler that returns
`Skip` has consumed at least one byte. -/

/-- Modelled from the spec: `Kind` (`kind.rs` is not among the sources) -
the token kinds the spec names, plus `Undetermined`. -/
inductive Kind where
  | Eof
  | Skip
  | Ident
  | Undetermined
  | LAngle
  | ShiftLeft
  | LtEq
  | ShiftLeftEq
deriving DecidableEq

/-- Modelled from the spec: `Token` (`token.rs` is not among the sources) -
the four fields the spec gives it: `start: u32`, `end: u32`, `kind`, and
`is_on_new_line`. -/
structure Token where
  start : Nat
  endPos : Nat
  kind : Kind
  isOnNewLine : Bool
deriving DecidableEq

/-- `Token::default()`: zeroed token. -/
def Token.default : Token :=
  { start := 0, endPos := 0, kind := .Undetermined, isOnNewLine := false }

/-- `Token::new_on_new_line()`: the default token with `is_on_new_line` set
(the first token of a file is considered to be on a new line). -/
def Token.new_on_new_line : Token :=
  { Token.default with isOnNewLine := true }

/-- Diagnostics are opaque to the lexer core: an abstract error value. -/
abbrev Err : Type := Nat

/-- The part of the lexer state a byte handler reads and writes: the cursor
and the token under construction.  Handlers never read the `errors` vector
(it is write-only during scanning), so emitted diagnostics are returned
separately and appended by the caller. -/
structure ScanState where
  pos : Nat
  tok : Token
deriving DecidableEq

/-- Modelled from the spec: the per-byte dispatch table (`handle_byte` of
`byte_handlers.rs`, not among the sources).  `handle b st` is the handler for
byte `b` run on scan state `st`: it returns the new scan state, the token
kind, and the diagnostics it pushed.  `skipProgress` is the property the
spec's trivia handlers have (they consume the byte(s) they skip): a `Skip`
return has advanced the cursor, which is also what makes the
`read_next_token` loop terminate. -/
structure ByteHandlers (src : List Nat) where
  handle : Nat → ScanState → ScanState × Kind × List Err
  skipProgress : ∀ b st, (handle b st).2.1 = Kind.Skip → st.pos < (handle b st).1.pos

/-- `Lexer::read_next_token`: loop - set `token.start` to the current offset;
at EOF return `Kind::Eof`; otherwise run the byte handler for the byte at the
cursor, and keep looping while it returns `Kind::Skip`.  The loop terminates
because a `Skip` return has strictly advanced the cursor (`skipProgress`), so
`src.length + 1 - st.pos` bounds the iterations; `fuel` (at least that bound,
consumed once per turn) makes the recursion structural without changing the
value computed - see `readNextToken_eof` / `readNextToken_step`. -/
def readNextTokenGo {src : List Nat} (H : ByteHandlers src) :
    Nat → ScanState → ScanState × Kind × List Err
  | 0, st => (⟨st.pos, { st.tok with start := st.pos }⟩, Kind.Eof, [])
  | fuel + 1, st =>
    if st.pos < src.length then
      match H.handle (src.getD st.pos 0) ⟨st.pos, { st.tok with start := st.pos }⟩ with
      | (st', kind, errs) =>
        if kind = Kind.Skip then
          match readNextTokenGo H fuel st' with
          | (st'', kind', errs') => (st'', kind', errs ++ errs')
        else (st', kind, errs)
    else (⟨st.pos, { st.tok with start := st.pos }⟩, Kind.Eof, [])

def readNextToken {src : List Nat} (H : ByteHandlers src) (st : ScanState) :
    ScanState × Kind × List Err :=
  readNextTokenGo H (src.length + 1 - st.pos) st

theorem readNextTokenGo_fuel {src : List Nat} (H : ByteHandlers src) (fuel : Nat) :
    ∀ (fuel' : Nat) (st : ScanState), src.length + 1 - st.pos ≤ fuel →
      src.length + 1 - st.pos ≤ fuel' →
      readNextTokenGo H fuel st = readNextTokenGo H fuel' st := by
  induction fuel with
  | zero =>
    intro fuel' st h h'
    have hpos : ¬ st.pos < src.length := by omega
    cases fuel' with
    | zero => rfl
    | succ fuel' =>
      show _ = (if st.pos < src.length then _ else _)
      rw [if_neg hpos]
      rfl
  | succ fuel ih =>
    intro fuel' st h h'
    by_cases hpos : st.pos < src.length
    · cases fuel' with
      | zero => omega
      | succ fuel' =>
        show (if st.pos < src.length then _ else _) = (if st.pos < src.length then _ else _)
        rw [if_pos hpos, if_pos hpos]
        match hr : H.handle (src.getD st.pos 0) ⟨st.pos, { st.tok with start := st.pos }⟩ with
        | (st', kind, errs) =>
          simp only []
          by_cases hskip : kind = Kind.Skip
          · rw [if_pos hskip, if_pos hskip]
            have hadv : st.pos < st'.pos := by
              have hp := H.skipProgress (src.getD st.pos 0)
                ⟨st.pos, { st.tok with start := st.pos }⟩
              rw [hr] at hp
              exact hp hskip
            rw [ih fuel' st' (by omega) (by omega)]
          · rw [if_neg hskip, if_neg hskip]
    · cases fuel' with
      | zero =>
        show (if st.pos < src.length then _ else _) = _
        rw [if_neg hpos]
        rfl
      | succ fuel' =>
        show (if st.pos < src.length then _ else _) = (if st.pos < src.length then _ else _)
        rw [if_neg hpos, if_neg hpos]

theorem readNextToken_eof {src : List Nat} (H : ByteHandlers src) (st : ScanState)
    (h : ¬ st.pos < src.length) :
    readNextToken H st = (⟨st.pos, { st.tok with start := st.pos }⟩, Kind.Eof, []) := by
  unfold readNextToken
  have : src.length + 1 - st.pos ≤ src.length + 1 := by omega
  match hf : src.length + 1 - st.pos with
  | 0 => rfl
  | fuel + 1 =>
    show (if st.pos < src.length then _ else _) = _
    rw [if_neg h]

/-- `LexerCheckpoint`: snapshot of `(cursor position, current token, errors length)`. -/
structure LexerCheckpoint where
  position : Nat
  token : Token
  errors_pos : Nat
deriving DecidableEq

/-- The lexer state that mutates during lexing: cursor position (the `Source`),
current token, errors vector, lookahead queue. -/
structure Lexer where
  pos : Nat
  token : Token
  errors : List Err
  lookahead : List LexerCheckpoint
deriving DecidableEq

/-- `read_next_token` run on a `Lexer`: the handlers mutate `(pos, token)` and
push errors. -/
def readStep {src : List Nat} (H : ByteHandlers src) (lx : Lexer) : Kind × Lexer :=
  match readNextToken H ⟨lx.pos, lx.token⟩ with
  | (st, kind, errs) =>
    (kind, { lx with pos := st.pos, token := st.tok, errors := lx.errors ++ errs })

/-- `Lexer::finish_next(kind)`: set the current token's `kind` and `end`,
return it, and reset the current token to `Token::default()`. -/
def finishNext (lx : Lexer) (kind : Kind) : Token × Lexer :=
  let token := { lx.token with kind := kind, endPos := lx.pos }
  (token, { lx with token := Token.default })

/-- `Lexer::next_token()`: pop the front of the lookahead queue (restoring the
cursor to the checkpoint's position) if non-empty, else read a fresh token. -/
def nextToken {src : List Nat} (H : ByteHandlers src) (lx : Lexer) : Token × Lexer :=
  match lx.lookahead with
  | cp :: rest => (cp.token, { lx with pos := cp.position, lookahead := rest })
  | [] =>
    match readStep H lx with
    | (kind, lx1) => finishNext lx1 kind

/-- `Lexer::checkpoint()`. -/
def checkpoint (lx : Lexer) : LexerCheckpoint :=
  { position := lx.pos, token := lx.token, errors_pos := lx.errors.length }

/-- `Lexer::rewind(checkpoint)`: truncate errors, restore cursor and token,
clear the lookahead queue. -/
def rewind (lx : Lexer) (cp : LexerCheckpoint) : Lexer :=
  { pos := cp.position, token := cp.token,
    errors := lx.errors.take cp.errors_pos, lookahead := [] }

/-- The `for _i in self.lookahead.len()..n` loop of `Lexer::lookahead`: read a
token, push a checkpoint holding the position after it, the token, and the
errors length; `peeked` is the last token read. -/
def lookaheadLoop {src : List Nat} (H : ByteHandlers src) :
    Nat → Lexer → Token → Token × Lexer
  | 0, lx, peeked => (peeked, lx)
  | m + 1, lx, _ =>
    match readStep H lx with
    | (kind, lx1) =>
      match finishNext lx1 kind with
      | (t, lx2) =>
        let cp : LexerCheckpoint :=
          { position := lx2.pos, token := t, errors_pos := lx2.errors.length }
        lookaheadLoop H m { lx2 with lookahead := lx2.lookahead ++ [cp] } t

/-- `Lexer::lookahead(n)` (`1 ≤ n`): if the queue already holds `n` tokens,
return the `n`-th; otherwise save `(token, position)`, move the cursor to the
last checkpoint's position if the queue is non-empty, reset the current token
to default, lazily extend the queue to depth `n`, then restore `(token,
position)` and return the last token read. -/
def lexerLookahead {src : List Nat} (H : ByteHandlers src) (lx : Lexer) (n : Nat) :
    Token × Lexer :=
  if h : n - 1 < lx.lookahead.length then
    ((lx.lookahead.get ⟨n - 1, h⟩).token, lx)
  else
    let token := lx.token
    let position := lx.pos
    let lx1 := match lx.lookahead.getLast? with
      | some cp => { lx with pos := cp.position }
      | none => lx
    let lx2 := { lx1 with token := Token.default }
    match lookaheadLoop H (n - lx2.lookahead.length) lx2 Token.default with
    | (peeked, lx3) => (peeked, { lx3 with token := token, pos := position })

/-! ## `crates/oxc_parser/src/lexer/typescript.rs` -/

/-- `Lexer::re_lex_as_typescript_l_angle(kind)`: re-tokenize `<<`, `<=` or
`<<=` as `<`.  `unreachable!()` for any other kind, and the `u32` subtraction
`self.offset() - offset` (which panics on underflow in debug builds) are
modelled as `none`; `Source::back` already returns `none` on its panics. -/
def re_lex_as_typescript_l_angle (src : List Nat) (lx : Lexer) (kind : Kind) :
    Option (Token × Lexer) :=
  let offset? : Option Nat := match kind with
    | .ShiftLeft | .LtEq => some 2
    | .ShiftLeftEq => some 3
    | _ => none
  match offset? with
  | none => none
  | some offset =>
    if lx.pos < offset then none
    else
      let lx1 := { lx with token := { lx.token with start := lx.pos - offset } }
      match Source.back ⟨src, lx1.pos⟩ (offset - 1) with
      | none => none
      | some s' =>
        let lx2 := { lx1 with pos := s'.pos, lookahead := [] }
        some (finishNext lx2 Kind.LAngle)

/-! ## C5: checkpoint / rewind -/

/-- C5: `rewind(cp)` with `cp = checkpoint()` taken earlier restores the
cursor position and current token to their snapshot values, truncates the
errors vector to its length at the snapshot (so when the errors have only
grown since, exactly the errors recorded since are discarded), and clears the
lookahead queue. -/
theorem claim_C5 (lx0 lx : Lexer) :
    (rewind lx (checkpoint lx0)).pos = lx0.pos ∧
    (rewind lx (checkpoint lx0)).token = lx0.token ∧
    (rewind lx (checkpoint lx0)).errors = lx.errors.take lx0.errors.length ∧
    (rewind lx (checkpoint lx0)).lookahead = [] ∧
    (∀ t, lx.errors = lx0.errors ++ t → (rewind lx (checkpoint lx0)).errors = lx0.errors) := by
  refine ⟨rfl, rfl, rfl, rfl, ?_⟩
  intro t ht
  show lx.errors.take lx0.errors.length = lx0.errors
  rw [ht]
  exact List.take_left _ _

theorem claim_C5_witness :
    (rewind ⟨7, Token.default, [0, 1, 2], [⟨3, Token.default, 1⟩]⟩
        (checkpoint ⟨2, Token.new_on_new_line, [0], []⟩)).pos = 2 ∧
    (rewind ⟨7, Token.default, [0, 1, 2], [⟨3, Token.default, 1⟩]⟩
        (checkpoint ⟨2, Token.new_on_new_line, [0], []⟩)).token = Token.new_on_new_line ∧
    (rewind ⟨7, Token.default, [0, 1, 2], [⟨3, Token.default, 1⟩]⟩
        (checkpoint ⟨2, Token.new_on_new_line, [0], []⟩)).errors =
      ([0, 1, 2] : List Err).take 1 ∧
    (rewind ⟨7, Token.default, [0, 1, 2], [⟨3, Token.default, 1⟩]⟩
        (checkpoint ⟨2, Token.new_on_new_line, [0], []⟩)).lookahead = [] ∧
    (∀ t, ([0, 1, 2] : List Err) = [0] ++ t →
      (rewind ⟨7, Token.default, [0, 1, 2], [⟨3, Token.default, 1⟩]⟩
        (checkpoint ⟨2, Token.new_on_new_line, [0], []⟩)).errors = [0]) :=
  claim_C5 ⟨2, Token.new_on_new_line, [0], []⟩ ⟨7, Token.default, [0, 1, 2], [⟨3, Token.default, 1⟩]⟩

/-! ## C7: TypeScript re-lexing of `<<`, `<=`, `<<=` as `<` -/

/-- C7: on a lexer whose current token was produced as `<<`, `<=` or `<<=`
(ending at the cursor), `re_lex_as_typescript_l_angle` moves the cursor back
`n - 1` bytes (`n` the token's length), rewrites the current token's start to
the original token's start `pos - n`, clears the lookahead queue, and returns
a finished token of kind `<` spanning exactly one byte. -/
theorem claim_C7 (src : List Nat) (lx : Lexer) (kind : Kind) (n : Nat)
    (hk : (kind = .ShiftLeft ∧ n = 2) ∨ (kind = .LtEq ∧ n = 2) ∨
      (kind = .ShiftLeftEq ∧ n = 3))
    (hpos : n ≤ lx.pos)
    (hcont : is_utf8_cont_byte (src.getD (lx.pos - (n - 1)) 0) = false) :
    ∃ t lx', re_lex_as_typescript_l_angle src lx kind = some (t, lx') ∧
      t.kind = .LAngle ∧ t.start = lx.pos - n ∧ t.endPos = (lx.pos - n) + 1 ∧
      t.endPos = t.start + 1 ∧
      lx'.pos = lx.pos - (n - 1) ∧ lx'.lookahead = [] ∧ lx'.token = Token.default := by
  have hback : Source.back ⟨src, lx.pos⟩ (n - 1) =
      some ⟨src, lx.pos - (n - 1)⟩ := by
    unfold Source.back
    rw [if_neg (by omega)]
    simp only []
    rw [if_neg (by omega), if_neg (by rw [hcont]; simp)]
  rcases hk with ⟨hk, hn⟩ | ⟨hk, hn⟩ | ⟨hk, hn⟩
  · subst hk; subst hn
    unfold re_lex_as_typescript_l_angle
    simp only []
    rw [if_neg (by omega), hback]
    refine ⟨_, _, rfl, rfl, rfl, ?_, ?_, rfl, rfl, rfl⟩
    · show lx.pos - (2 - 1) = lx.pos - 2 + 1
      omega
    · show lx.pos - (2 - 1) = lx.pos - 2 + 1
      omega
  · subst hk; subst hn
    unfold re_lex_as_typescript_l_angle
    simp only []
    rw [if_neg (by omega), hback]
    refine ⟨_, _, rfl, rfl, rfl, ?_, ?_, rfl, rfl, rfl⟩
    · show lx.pos - (2 - 1) = lx.pos - 2 + 1
      omega
    · show lx.pos - (2 - 1) = lx.pos - 2 + 1
      omega
  · subst hk; subst hn
    unfold re_lex_as_typescript_l_angle
    simp only []
    rw [if_neg (by omega), hback]
    refine ⟨_, _, rfl, rfl, rfl, ?_, ?_, rfl, rfl, rfl⟩
    · show lx.pos - (3 - 1) = lx.pos - 3 + 1
      omega
    · show lx.pos - (3 - 1) = lx.pos - 3 + 1
      omega

theorem claim_C7_witness :
    ∃ t lx', re_lex_as_typescript_l_angle [97, 60, 60, 98] ⟨3, Token.default, [], []⟩
        Kind.ShiftLeft = some (t, lx') ∧
      t.kind = .LAngle ∧ t.start = 3 - 2 ∧ t.endPos = (3 - 2) + 1 ∧
      t.endPos = t.start + 1 ∧
      lx'.pos = 3 - (2 - 1) ∧ lx'.lookahead = [] ∧ lx'.token = Token.default :=
  claim_C7 [97, 60, 60, 98] ⟨3, Token.default, [], []⟩ Kind.ShiftLeft 2
    (Or.inl ⟨rfl, rfl⟩) (by decide) (by decide)

/-! ## C1: lookahead infrastructure

`read_next_token` (plus `finish_next`) is, for a fixed handler table, a pure
function of the cursor position once the current token starts from
`Token::default()` - which is how both `next_token` and the lookahead loop
run it.  `scanTok` is that function; `Chain` says a lookahead queue holds
exactly the checkpoints that re-reading from a position would produce. -/

/-- One fresh token read from position `p` with a default current token:
the finished token, the position after it, and the diagnostics emitted. -/
def scanTok {src : List Nat} (H : ByteHandlers src) (p : Nat) : Token × Nat × List Err :=
  match readNextToken H ⟨p, Token.default⟩ with
  | (st, kind, errs) => ({ st.tok with kind := kind, endPos := st.pos }, st.pos, errs)

/-- The lookahead queue `Q` is consistent with re-reading from position `p`:
each checkpoint holds the token and after-position of the successive fresh
reads. -/
def Chain {src : List Nat} (H : ByteHandlers src) : Nat → List LexerCheckpoint → Prop
  | _, [] => True
  | p, cp :: rest =>
    (scanTok H p).1 = cp.token ∧ (scanTok H p).2.1 = cp.position ∧
      Chain H cp.position rest

/-- The position fresh reads resume from: the last checkpoint's position, or
`p` for an empty queue. -/
def chainEnd (p : Nat) (Q : List LexerCheckpoint) : Nat :=
  ((Q.getLast?).map (fun cp => cp.position)).getD p

/-- The tokens produced by `k` successive `next_token` calls. -/
def tokensFrom {src : List Nat} (H : ByteHandlers src) : Lexer → Nat → List Token
  | _, 0 => []
  | lx, k + 1 =>
    match nextToken H lx with
    | (t, lx') => t :: tokensFrom H lx' k

theorem chainEnd_nil (p : Nat) : chainEnd p [] = p := rfl

theorem chainEnd_cons (p : Nat) (cp : LexerCheckpoint) (Q : List LexerCheckpoint) :
    chainEnd p (cp :: Q) = chainEnd cp.position Q := by
  cases Q with
  | nil => rfl
  | cons cp2 Q =>
    obtain ⟨l, hl⟩ : ∃ l, (cp2 :: Q).getLast? = some l := by
      cases hq : (cp2 :: Q).getLast? with
      | some l => exact ⟨l, rfl⟩
      | none => exact absurd (List.getLast?_eq_none_iff.1 hq) (by simp)
    unfold chainEnd
    rw [List.getLast?_cons_cons, hl]
    rfl

/-- `next_token` on a queue-less lexer whose current token is the default:
exactly a `scanTok` from the cursor. -/
theorem nextTokenFresh {src : List Nat} (H : ByteHandlers src) (p : Nat) (e : List Err) :
    nextToken H ⟨p, Token.default, e, []⟩ =
      ((scanTok H p).1, ⟨(scanTok H p).2.1, Token.default, e ++ (scanTok H p).2.2, []⟩) := rfl

/-- `next_token` pops the queue front, moving the cursor to its position. -/
theorem nextTokenPop {src : List Nat} (H : ByteHandlers src) (p : Nat) (tok : Token)
    (e : List Err) (cp : LexerCheckpoint) (rest : List LexerCheckpoint) :
    nextToken H ⟨p, tok, e, cp :: rest⟩ = (cp.token, ⟨cp.position, tok, e, rest⟩) := rfl

/-- The token stream does not depend on the errors accumulated so far. -/
theorem tokensFromErrs {src : List Nat} (H : ByteHandlers src) (k : Nat) :
    ∀ (p : Nat) (tok : Token) (Q : List LexerCheckpoint) (e e' : List Err),
      tokensFrom H ⟨p, tok, e, Q⟩ k = tokensFrom H ⟨p, tok, e', Q⟩ k := by
  induction k with
  | zero => intro p tok Q e e'; rfl
  | succ k ih =>
    intro p tok Q e e'
    cases Q with
    | cons cp rest =>
      show (nextToken H ⟨p, tok, e, cp :: rest⟩).1 ::
          tokensFrom H (nextToken H ⟨p, tok, e, cp :: rest⟩).2 k =
        (nextToken H ⟨p, tok, e', cp :: rest⟩).1 ::
          tokensFrom H (nextToken H ⟨p, tok, e', cp :: rest⟩).2 k
      rw [nextTokenPop, nextTokenPop]
      simp only []
      rw [ih cp.position tok rest e e']
    | nil =>
      show (nextToken H ⟨p, tok, e, []⟩).1 ::
          tokensFrom H (nextToken H ⟨p, tok, e, []⟩).2 k =
        (nextToken H ⟨p, tok, e', []⟩).1 ::
          tokensFrom H (nextToken H ⟨p, tok, e', []⟩).2 k
      unfold nextToken readStep finishNext
      simp only []
      match hr : readNextToken H ⟨p, tok⟩ with
      | (st, kind, errs) =>
        simp only []
        rw [ih st.pos Token.default [] (e ++ errs) (e' ++ errs)]

/-- Popping a consistent queue yields the same token stream as re-reading
from the queue's anchor position with an empty queue. -/
theorem tokensChain {src : List Nat} (H : ByteHandlers src) :
    ∀ (Q : List LexerCheckpoint) (p : Nat) (e e' : List Err) (k : Nat),
      Chain H p Q →
      tokensFrom H ⟨p, Token.default, e, Q⟩ k = tokensFrom H ⟨p, Token.default, e', []⟩ k := by
  intro Q
  induction Q with
  | nil => intro p e e' k _; exact tokensFromErrs H k p Token.default [] e e'
  | cons cp rest ih =>
    intro p e e' k hchain
    obtain ⟨htok, hpos, hrest⟩ := hchain
    cases k with
    | zero => rfl
    | succ k =>
      show (nextToken H ⟨p, Token.default, e, cp :: rest⟩).1 ::
          tokensFrom H (nextToken H ⟨p, Token.default, e, cp :: rest⟩).2 k =
        (nextToken H ⟨p, Token.default, e', []⟩).1 ::
          tokensFrom H (nextToken H ⟨p, Token.default, e', []⟩).2 k
      rw [nextTokenPop, nextTokenFresh]
      simp only []
      rw [htok, hpos]
      rw [ih cp.position e (e' ++ (scanTok H p).2.2) k hrest]

/-- Extending a consistent queue by the next fresh read keeps it consistent
and moves its end to the new checkpoint's position. -/
theorem chainSnoc {src : List Nat} (H : ByteHandlers src) :
    ∀ (Q : List LexerCheckpoint) (p : Nat) (cp : LexerCheckpoint),
      Chain H p Q →
      (scanTok H (chainEnd p Q)).1 = cp.token →
      (scanTok H (chainEnd p Q)).2.1 = cp.position →
      Chain H p (Q ++ [cp]) ∧ chainEnd p (Q ++ [cp]) = cp.position := by
  intro Q
  induction Q with
  | nil =>
    intro p cp _ htok hpos
    rw [chainEnd_nil] at htok hpos
    exact ⟨⟨htok, hpos, trivial⟩, rfl⟩
  | cons cp0 rest ih =>
    intro p cp hchain htok hpos
    obtain ⟨h1, h2, h3⟩ := hchain
    rw [chainEnd_cons] at htok hpos
    obtain ⟨hc, he⟩ := ih cp0.position cp h3 htok hpos
    refine ⟨⟨h1, h2, hc⟩, ?_⟩
    rw [show (cp0 :: rest) ++ [cp] = cp0 :: (rest ++ [cp]) from rfl, chainEnd_cons]
    exact he

theorem getDEqGet {α : Type} (l : List α) (i : Nat) (h : i < l.length) (d : α) :
    l.getD i d = l.get ⟨i, h⟩ := by
  induction l generalizing i with
  | nil => simp at h
  | cons a l ih =>
    cases i with
    | zero => rfl
    | succ i => simpa using ih i (by simpa using h)

/-- With at least `k` queued checkpoints, the next `k` tokens come straight
from the queue. -/
theorem tokensFromQueueGetD {src : List Nat} (H : ByteHandlers src) (k : Nat) :
    ∀ (lx : Lexer) (i : Nat), i < k → k ≤ lx.lookahead.length →
      (tokensFrom H lx k).getD i Token.default =
        (lx.lookahead.getD i ⟨0, Token.default, 0⟩).token := by
  induction k with
  | zero => intro lx i hik _; omega
  | succ k ih =>
    intro lx i hik hlen
    match hq : lx.lookahead, hlen with
    | cp :: rest, hlen =>
      have hlx : lx = ⟨lx.pos, lx.token, lx.errors, cp :: rest⟩ := by
        show lx = { lx with lookahead := cp :: rest }
        rw [← hq]
      rw [hlx]
      show ((nextToken H ⟨lx.pos, lx.token, lx.errors, cp :: rest⟩).1 ::
          tokensFrom H (nextToken H ⟨lx.pos, lx.token, lx.errors, cp :: rest⟩).2 k).getD i
          Token.default = _
      rw [nextTokenPop]
      simp only []
      cases i with
      | zero => rfl
      | succ i =>
        show (tokensFrom H ⟨cp.position, lx.token, lx.errors, rest⟩ k).getD i Token.default = _
        rw [ih ⟨cp.position, lx.token, lx.errors, rest⟩ i (by omega)
          (by show k ≤ rest.length; simp at hlen; omega)]
        rfl

/-- The lookahead loop extends a consistent queue by `m` fresh checkpoints,
leaving the cursor at the new queue end and the current token default. -/
theorem lookaheadLoopSpec {src : List Nat} (H : ByteHandlers src) (m : Nat) :
    ∀ (lx : Lexer) (p : Nat) (peeked : Token),
      Chain H p lx.lookahead → lx.pos = chainEnd p lx.lookahead →
      lx.token = Token.default →
      Chain H p (lookaheadLoop H m lx peeked).2.lookahead ∧
      (lookaheadLoop H m lx peeked).2.lookahead.length = lx.lookahead.length + m ∧
      (lookaheadLoop H m lx peeked).2.pos =
        chainEnd p (lookaheadLoop H m lx peeked).2.lookahead ∧
      (lookaheadLoop H m lx peeked).2.token = Token.default := by
  induction m with
  | zero =>
    intro lx p peeked hchain hpos hτ
    exact ⟨hchain, rfl, hpos, hτ⟩
  | succ m ih =>
    intro lx p peeked hchain hpos hτ
    have hlx : lx = ⟨lx.pos, Token.default, lx.errors, lx.lookahead⟩ := by
      rw [← hτ]
    rw [hlx]
    have hstep : lookaheadLoop H (m + 1) ⟨lx.pos, Token.default, lx.errors, lx.lookahead⟩
        peeked =
        lookaheadLoop H m
          ⟨(scanTok H lx.pos).2.1, Token.default,
            lx.errors ++ (scanTok H lx.pos).2.2,
            lx.lookahead ++ [⟨(scanTok H lx.pos).2.1, (scanTok H lx.pos).1,
              (lx.errors ++ (scanTok H lx.pos).2.2).length⟩]⟩
          (scanTok H lx.pos).1 := rfl
    rw [hstep]
    have hcp := chainSnoc H lx.lookahead p
      ⟨(scanTok H lx.pos).2.1, (scanTok H lx.pos).1,
        (lx.errors ++ (scanTok H lx.pos).2.2).length⟩
      hchain (by rw [← hpos]) (by rw [← hpos])
    obtain ⟨hc2, he2⟩ := hcp
    have ihr := ih
      ⟨(scanTok H lx.pos).2.1, Token.default,
        lx.errors ++ (scanTok H lx.pos).2.2,
        lx.lookahead ++ [⟨(scanTok H lx.pos).2.1, (scanTok H lx.pos).1,
          (lx.errors ++ (scanTok H lx.pos).2.2).length⟩]⟩
      p (scanTok H lx.pos).1 hc2 (by rw [he2]) rfl
    refine ⟨ihr.1, ?_, ihr.2.2.1, ihr.2.2.2⟩
    rw [ihr.2.1]
    simp only [List.length_append, List.length_cons, List.length_nil]
    omega

/-- When a queue holds a last checkpoint, the chain end is its position. -/
theorem chainEndLast (p : Nat) (Q : List LexerCheckpoint) (cp : LexerCheckpoint)
    (h : Q.getLast? = some cp) : chainEnd p Q = cp.position := by
  unfold chainEnd
  rw [h]
  rfl

/-- `Lexer::lookahead(n)` (from a state with a default current token and a
consistent queue): the resulting state keeps the cursor and current token,
and holds a consistent queue of at least `n` checkpoints. -/
theorem lexerLookaheadSpec {src : List Nat} (H : ByteHandlers src) (lx : Lexer) (n : Nat)
    (hτ : lx.token = Token.default) (hchain : Chain H lx.pos lx.lookahead)
    (hn : 1 ≤ n) :
    Chain H lx.pos (lexerLookahead H lx n).2.lookahead ∧
    (lexerLookahead H lx n).2.pos = lx.pos ∧
    (lexerLookahead H lx n).2.token = Token.default ∧
    n ≤ (lexerLookahead H lx n).2.lookahead.length := by
  unfold lexerLookahead
  by_cases h : n - 1 < lx.lookahead.length
  · rw [dif_pos h]
    exact ⟨hchain, rfl, hτ, by show n ≤ lx.lookahead.length; omega⟩
  · rw [dif_neg h]
    cases hq : lx.lookahead.getLast? with
    | none =>
      have hnil : lx.lookahead = [] := List.getLast?_eq_none_iff.1 hq
      have hloop := lookaheadLoopSpec H (n - lx.lookahead.length)
        ⟨lx.pos, Token.default, lx.errors, lx.lookahead⟩ lx.pos Token.default
        hchain (by show lx.pos = chainEnd lx.pos lx.lookahead; rw [hnil, chainEnd_nil]) rfl
      refine ⟨?_, ?_, ?_, ?_⟩
      · show Chain H lx.pos (lookaheadLoop H (n - lx.lookahead.length)
          ⟨lx.pos, Token.default, lx.errors, lx.lookahead⟩ Token.default).2.lookahead
        exact hloop.1
      · rfl
      · show lx.token = Token.default
        exact hτ
      · show n ≤ (lookaheadLoop H (n - lx.lookahead.length)
          ⟨lx.pos, Token.default, lx.errors, lx.lookahead⟩ Token.default).2.lookahead.length
        rw [hloop.2.1]
        show n ≤ lx.lookahead.length + (n - lx.lookahead.length)
        omega
    | some cp =>
      have hloop := lookaheadLoopSpec H (n - lx.lookahead.length)
        ⟨cp.position, Token.default, lx.errors, lx.lookahead⟩ lx.pos Token.default
        hchain (by show cp.position = chainEnd lx.pos lx.lookahead
                   rw [chainEndLast lx.pos lx.lookahead cp hq]) rfl
      refine ⟨?_, ?_, ?_, ?_⟩
      · show Chain H lx.pos (lookaheadLoop H (n - lx.lookahead.length)
          ⟨cp.position, Token.default, lx.errors, lx.lookahead⟩ Token.default).2.lookahead
        exact hloop.1
      · rfl
      · show lx.token = Token.default
        exact hτ
      · show n ≤ (lookaheadLoop H (n - lx.lookahead.length)
          ⟨cp.position, Token.default, lx.errors, lx.lookahead⟩ Token.default).2.lookahead.length
        rw [hloop.2.1]
        show n ≤ lx.lookahead.length + (n - lx.lookahead.length)
        omega

/-- `Lexer::lookahead(i)` when the queue already holds at least `i` tokens:
return the `i`-th queued token and leave the state unchanged. -/
theorem lexerLookaheadHit {src : List Nat} (H : ByteHandlers src) (lx : Lexer) (i : Nat)
    (h : i - 1 < lx.lookahead.length) :
    lexerLookahead H lx i = ((lx.lookahead.get ⟨i - 1, h⟩).token, lx) := by
  unfold lexerLookahead
  rw [dif_pos h]

/-- C1 (amended): for every lexer state whose current partial token is
`Token::default()` and whose lookahead queue is consistent with re-reading
from the cursor - which holds after any completed `next_token` call, but not
for a freshly-constructed lexer, whose current token is
`Token::new_on_new_line()` - and every `n` in `{1,2,3,4}`: `lookahead(n)`
does not change the token stream the subsequent `next_token` calls yield, and
the `i`-th token returned after `lookahead(n)` equals `lookahead(i)`'s
result for every `1 ≤ i ≤ n`. -/
theorem claim_C1 {src : List Nat} (H : ByteHandlers src) (lx : Lexer) (n : Nat)
    (hτ : lx.token = Token.default) (hchain : Chain H lx.pos lx.lookahead)
    (hn1 : 1 ≤ n) (hn4 : n ≤ 4) :
    (∀ k, tokensFrom H (lexerLookahead H lx n).2 k = tokensFrom H lx k) ∧
    (∀ i, 1 ≤ i → i ≤ n →
      (tokensFrom H (lexerLookahead H lx n).2 n).getD (i - 1) Token.default =
        (lexerLookahead H (lexerLookahead H lx n).2 i).1) := by
  have hspec := lexerLookaheadSpec H lx n hτ hchain hn1
  have hL : (lexerLookahead H lx n).2 =
      ⟨lx.pos, Token.default, (lexerLookahead H lx n).2.errors,
        (lexerLookahead H lx n).2.lookahead⟩ := by
    rw [← hspec.2.1, ← hspec.2.2.1]
  have hlx : lx = ⟨lx.pos, Token.default, lx.errors, lx.lookahead⟩ := by
    rw [← hτ]
  constructor
  · intro k
    calc tokensFrom H (lexerLookahead H lx n).2 k
        = tokensFrom H ⟨lx.pos, Token.default, (lexerLookahead H lx n).2.errors,
            (lexerLookahead H lx n).2.lookahead⟩ k :=
          congrArg (fun l => tokensFrom H l k) hL
      _ = tokensFrom H ⟨lx.pos, Token.default, [], []⟩ k :=
          tokensChain H (lexerLookahead H lx n).2.lookahead lx.pos
            (lexerLookahead H lx n).2.errors [] k hspec.1
      _ = tokensFrom H ⟨lx.pos, Token.default, lx.errors, lx.lookahead⟩ k :=
          (tokensChain H lx.lookahead lx.pos lx.errors [] k hchain).symm
      _ = tokensFrom H lx k := congrArg (fun l => tokensFrom H l k) hlx.symm
  · intro i hi1 hin
    have hlen : n ≤ (lexerLookahead H lx n).2.lookahead.length := hspec.2.2.2
    have hilt : i - 1 < (lexerLookahead H lx n).2.lookahead.length := by omega
    rw [tokensFromQueueGetD H n (lexerLookahead H lx n).2 (i - 1) (by omega) hlen]
    rw [getDEqGet _ (i - 1) hilt]
    rw [lexerLookaheadHit H (lexerLookahead H lx n).2 i hilt]

/-- A concrete byte-handler table: every byte is lexed as a one-byte
identifier. -/
def unitHandlers (src : List Nat) : ByteHandlers src where
  handle := fun _ st => (⟨st.pos + 1, st.tok⟩, Kind.Ident, [])
  skipProgress := fun _ _ h => nomatch h

/-- C1, original form, fails at the freshly-constructed lexer: on an empty
source, `lookahead(1)` followed by `next_token()` returns a token whose
`is_on_new_line` flag is `false`, while `next_token()` alone returns one with
the flag `true` (the fresh lexer's current token is `Token::new_on_new_line()`,
but `lookahead` builds the queued tokens from `Token::default()`). -/
theorem claim_C1_counterexample :
    (nextToken (unitHandlers []) (lexerLookahead (unitHandlers [])
        ⟨0, Token.new_on_new_line, [], []⟩ 1).2).1 ≠
      (nextToken (unitHandlers []) ⟨0, Token.new_on_new_line, [], []⟩).1 := by
  decide

theorem claim_C1_witness :
    tokensFrom (unitHandlers []) (lexerLookahead (unitHandlers [])
        ⟨0, Token.default, [], []⟩ 1).2 2 =
      tokensFrom (unitHandlers []) ⟨0, Token.default, [], []⟩ 2 ∧
    (tokensFrom (unitHandlers []) (lexerLookahead (unitHandlers [])
        ⟨0, Token.default, [], []⟩ 1).2 1).getD 0 Token.default =
      (lexerLookahead (unitHandlers []) (lexerLookahead (unitHandlers [])
        ⟨0, Token.default, [], []⟩ 1).2 1).1 :=
  ⟨(claim_C1 (unitHandlers []) ⟨0, Token.default, [], []⟩ 1 rfl trivial
      (by decide) (by decide)).1 2,
   (claim_C1 (unitHandlers []) ⟨0, Token.default, [], []⟩ 1 rfl trivial
      (by decide) (by decide)).2 1 (by decide) (by decide)⟩
